import Mathlib

/-!
Verification of the `Albert24GG/pcom-assignments` repository.

The development shallowly embeds:
* the two `TokenPattern::matches` implementations
  (`src/tcp-udp-server/src/common/token_pattern.cpp`, queue-based, and
  `src/tcp-udp-server/server/token_pattern.cpp`, greedy single pass);
* the TCP wire codec (`server/tcp_proto.cpp` / `tcp_proto.hpp`);
* the subscribers registry (`server/subscribers_registry.cpp`);
* the binary trie (`src/dataplane-router/binary_trie.hpp`);
* the ARP table and reply handling (`src/dataplane-router/arp-table.*`,
  `router.cpp`).
-/

namespace PcomSpec

/-! ## Token patterns

A parsed pattern is the `tokens_` vector: a list of strings, where the
strings `"*"` and `"+"` are the wildcards.  `matches` in both
implementations first rejects a wildcard-bearing `other`; the functions
below model the core matching loop that runs after that guard.
-/

/-- `TokenPattern::is_wildcard`: a token is a wildcard iff it is `"*"` or `"+"`. -/
def isWildcardTok (t : String) : Bool :=
  t = "*" || t = "+"

/-- `TokenPattern::has_wildcard`: any token of the pattern is a wildcard. -/
def hasWildcard (tokens : List String) : Bool :=
  tokens.any isWildcardTok

/-- The skip-loop of the greedy matcher
(`server/token_pattern.cpp`, lines 85-88):
`while (other_index < size && other[other_index] != tok) ++other_index;`
returns the first index `≥ start` whose token equals `tok`,
or `other.length` if there is none. -/
def findFrom (other : List String) (start : Nat) (tok : String) : Nat :=
  start + (other.drop start).findIdx (fun t => t = tok)

/-- The single-pass greedy matcher `TokenPattern::matches` of
`server/token_pattern.cpp` (lines 68-100), after the wildcard guard on
`other`.  State `(ti, oi)` is the pair `(this_index, other_index)`. -/
def greedyGo (self other : List String) (ti oi : Nat) : Bool :=
  if ti < self.length ∧ oi < other.length then
    if self.getD ti "" = "*" then
      if ti + 1 = self.length then true
      else greedyGo self other (ti + 1) (findFrom other oi (self.getD (ti + 1) ""))
    else if self.getD ti "" = "+" ∨ self.getD ti "" = other.getD oi "" then
      greedyGo self other (ti + 1) (oi + 1)
    else false
  else
    decide (ti = self.length ∧ oi = other.length)
termination_by self.length - ti
decreasing_by all_goals omega

/-- Greedy `matches`, started at `(0, 0)` as in the source. -/
def matchesGreedy (self other : List String) : Bool :=
  greedyGo self other 0 0

/-- The occurrence scan of the queue-based matcher
(`src/common/token_pattern.cpp`, lines 97-105): all indices `j ≥ oi` with
`other[j] = tok`, produced in descending order because the source walks
`other` with reverse iterators from `rbegin` down to `rend - other_index`. -/
def starTargets (other : List String) (oi : Nat) (tok : String) : List Nat :=
  ((List.range other.length).filter (fun j => oi ≤ j ∧ other.getD j "" = tok)).reverse

/-- Weight of a queue state, used only for termination of `queueGo`:
states with larger `this_index` weigh exponentially less. -/
def stateWeight (selfLen otherLen : Nat) (s : Nat × Nat) : Nat :=
  (otherLen + 2) ^ (selfLen + 1 - s.1)

/-- The queue-based exploring matcher `TokenPattern::matches` of
`src/common/token_pattern.cpp` (lines 69-114), after the wildcard guard.
The `std::queue` of `(this_index, other_index)` pairs is the list
argument; the front is the head, pushes append at the tail.
A star pushes `(this_index + 1, j + 1)` for every occurrence `j` of the
token following the star, matching lines 97-105 of the source
(`distance(it, rend)` is `j + 1`). -/
def queueGo (self other : List String) : List (Nat × Nat) → Bool
  | [] => false
  | (ti, oi) :: rest =>
    if ti = self.length ∧ oi = other.length then true
    else if self.length ≤ ti ∨ other.length ≤ oi then queueGo self other rest
    else if self.getD ti "" = "*" then
      if ti + 1 = self.length then true
      else
        queueGo self other
          (rest ++ (starTargets other oi (self.getD (ti + 1) "")).map
            (fun j => (ti + 2, j + 1)))
    else if self.getD ti "" = "+" ∨ self.getD ti "" = other.getD oi "" then
      queueGo self other (rest ++ [(ti + 1, oi + 1)])
    else queueGo self other rest
termination_by q => (q.map (stateWeight self.length other.length)).sum
decreasing_by
  · simp only [List.map_cons, List.sum_cons]
    have h1 : 1 ≤ stateWeight self.length other.length (ti, oi) :=
      Nat.one_le_pow _ _ (by omega)
    omega
  · rename_i h1 h2 h3 h4
    simp only [List.map_cons, List.sum_cons, List.map_append, List.sum_append]
    have hlen : ((starTargets other oi (self.getD (ti + 1) "")).map
        (fun j => (ti + 2, j + 1))).length ≤ other.length := by
      simp only [List.length_map, starTargets, List.length_reverse]
      calc ((List.range other.length).filter
            (fun j => oi ≤ j ∧ other.getD j "" = self.getD (ti + 1) "")).length
          ≤ (List.range other.length).length := List.length_filter_le _ _
        _ = other.length := List.length_range _
    have hW : ∀ s ∈ (starTargets other oi (self.getD (ti + 1) "")).map
        (fun j => (ti + 2, j + 1)),
        stateWeight self.length other.length s
          = (other.length + 2) ^ (self.length + 1 - (ti + 2)) := by
      intro s hs
      simp only [List.mem_map] at hs
      obtain ⟨j, _, rfl⟩ := hs
      rfl
    have hsum : (((starTargets other oi (self.getD (ti + 1) "")).map
        (fun j => (ti + 2, j + 1))).map
          (stateWeight self.length other.length)).sum
        ≤ other.length * (other.length + 2) ^ (self.length + 1 - (ti + 2)) := by
      calc (((starTargets other oi (self.getD (ti + 1) "")).map
            (fun j => (ti + 2, j + 1))).map
              (stateWeight self.length other.length)).sum
          ≤ (((starTargets other oi (self.getD (ti + 1) "")).map
            (fun j => (ti + 2, j + 1))).map
              (fun _ => (other.length + 2) ^ (self.length + 1 - (ti + 2)))).sum := by
            apply List.sum_le_sum
            intro s hs
            rw [hW s hs]
        _ = ((starTargets other oi (self.getD (ti + 1) "")).map
              (fun j => (ti + 2, j + 1))).length
              * (other.length + 2) ^ (self.length + 1 - (ti + 2)) := by
            rw [List.map_const', List.sum_replicate, smul_eq_mul]
        _ ≤ other.length * (other.length + 2) ^ (self.length + 1 - (ti + 2)) :=
            Nat.mul_le_mul_right _ hlen
    have hti : ti + 2 ≤ self.length := by
      simp only [not_or, not_le] at h2
      omega
    have hexp : self.length + 1 - ti = (self.length + 1 - (ti + 2)) + 2 := by omega
    have hfin : other.length * (other.length + 2) ^ (self.length + 1 - (ti + 2))
        < stateWeight self.length other.length (ti, oi) := by
      simp only [stateWeight, hexp, pow_add, pow_two]
      have hbase : 0 < (other.length + 2) ^ (self.length + 1 - (ti + 2)) :=
        Nat.pos_pow_of_pos _ (by omega)
      calc other.length * (other.length + 2) ^ (self.length + 1 - (ti + 2))
          < ((other.length + 2) * (other.length + 2))
              * (other.length + 2) ^ (self.length + 1 - (ti + 2)) :=
            (Nat.mul_lt_mul_right hbase).mpr (by nlinarith)
        _ = (other.length + 2) ^ (self.length + 1 - (ti + 2))
              * ((other.length + 2) * (other.length + 2)) := by ring
    simp only [List.map_cons, List.sum_cons] at *
    omega
  · rename_i h1 h2 h3 h4
    simp only [List.map_cons, List.sum_cons, List.map_append, List.sum_append,
      List.map_cons, List.map_nil, List.sum_nil]
    have hti : ti + 1 ≤ self.length := by
      simp only [not_or, not_le] at h2
      omega
    have : stateWeight self.length other.length (ti + 1, oi + 1)
        < stateWeight self.length other.length (ti, oi) := by
      simp only [stateWeight]
      apply Nat.pow_lt_pow_right (by omega)
      omega
    omega
  · simp only [List.map_cons, List.sum_cons]
    have h1 : 1 ≤ stateWeight self.length other.length (ti, oi) :=
      Nat.one_le_pow _ _ (by omega)
    omega

/-- Queue-based `matches`, started from the single state `(0, 0)`. -/
def matchesQueue (self other : List String) : Bool :=
  queueGo self other [(0, 0)]

/-- One-step unfolding: an empty queue yields `false`. -/
theorem queueGo_nil (self other : List String) : queueGo self other [] = false := by
  rw [queueGo]

/-- One-step unfolding of `queueGo` on a non-empty queue. -/
theorem queueGo_cons (self other : List String) (ti oi : Nat) (rest : List (Nat × Nat)) :
    queueGo self other ((ti, oi) :: rest) =
    (if ti = self.length ∧ oi = other.length then true
    else if self.length ≤ ti ∨ other.length ≤ oi then queueGo self other rest
    else if self.getD ti "" = "*" then
      if ti + 1 = self.length then true
      else
        queueGo self other
          (rest ++ (starTargets other oi (self.getD (ti + 1) "")).map
            (fun j => (ti + 2, j + 1)))
    else if self.getD ti "" = "+" ∨ self.getD ti "" = other.getD oi "" then
      queueGo self other (rest ++ [(ti + 1, oi + 1)])
    else queueGo self other rest) := by rw [queueGo]

/-- On a pattern without `*`, both matchers advance deterministically through
the same `(this_index, other_index)` states: the queue never holds more than
one state and agrees step by step with the greedy loop. -/
theorem queueGo_single_starFree (self other : List String) (h : "*" ∉ self) :
    ∀ k ti oi, self.length - ti ≤ k →
      queueGo self other [(ti, oi)] = greedyGo self other ti oi := by
  intro k
  induction k with
  | zero =>
    intro ti oi hk
    have hti : self.length ≤ ti := by omega
    rw [queueGo_cons, greedyGo]
    by_cases h1 : ti = self.length ∧ oi = other.length
    · have hg : ¬(ti < self.length ∧ oi < other.length) := by omega
      rw [if_pos h1, if_neg hg]
      simp [h1]
    · have hg : ¬(ti < self.length ∧ oi < other.length) := by omega
      rw [if_neg h1, if_pos (Or.inl hti), queueGo_nil, if_neg hg]
      simp [h1]
  | succ n ih =>
    intro ti oi hk
    rw [queueGo_cons, greedyGo]
    by_cases h1 : ti = self.length ∧ oi = other.length
    · have hg : ¬(ti < self.length ∧ oi < other.length) := by omega
      rw [if_pos h1, if_neg hg]
      simp [h1]
    · rw [if_neg h1]
      by_cases h2 : self.length ≤ ti ∨ other.length ≤ oi
      · have hg : ¬(ti < self.length ∧ oi < other.length) := by omega
        rw [if_pos h2, queueGo_nil, if_neg hg]
        simp only [eq_comm, decide_eq_false h1]
      · have hg : ti < self.length ∧ oi < other.length := by omega
        have hmem : self.getD ti "" ∈ self := by
          rw [List.getD_eq_getElem?_getD, List.getElem?_eq_getElem hg.1]
          exact List.getElem_mem _
        have hstar : ¬self.getD ti "" = "*" := fun hc => h (hc ▸ hmem)
        rw [if_neg h2, if_pos hg, if_neg hstar, if_neg hstar]
        by_cases h4 : self.getD ti "" = "+" ∨ self.getD ti "" = other.getD oi ""
        · rw [if_pos h4, if_pos h4, List.nil_append]
          exact ih (ti + 1) (oi + 1) (by omega)
        · rw [if_neg h4, if_neg h4, queueGo_nil]

/-- **C1.** The spec states that `*` consumes one or more concrete tokens and
in particular that `a/*/c` does not match `a/c`.  Both `TokenPattern::matches`
implementations, however, let `*` consume zero tokens whenever the token that
follows the star matches at the current position: on the pattern `a/*/c` and
the concrete topic `a/c`, the queue matcher pushes `(3, 2)` from the occurrence
of `c` at index 1 and accepts, and the greedy matcher's skip loop does not move
because `other[1] = c` already; both return `true`, contradicting the claim
and the header comment `'*' wildcard - matches 1 or more string tokens`. -/
theorem C1_star_consumes_zero_eval :
    matchesQueue ["a", "*", "c"] ["a", "c"] = true ∧
    matchesGreedy ["a", "*", "c"] ["a", "c"] = true := by
  constructor
  · simp +decide [-Prod.mk_zero_zero, -Prod.mk_one_one, matchesQueue, queueGo,
      starTargets, List.range_succ]
  · simp +decide [matchesGreedy, greedyGo, findFrom, List.findIdx, List.findIdx.go]

/-- **C10, counterexample.** The two `matches` implementations disagree: on a
star the queue matcher explores every occurrence of the following literal while
the greedy matcher commits to the first one.  For the pattern `*/b/c` and the
concrete topic `a/b/b/c`, the queue matcher finds the split that uses the
second `b` and accepts, while the greedy matcher stops at the first `b` and
then fails on `c` versus `b`. -/
theorem C10_counterexample :
    matchesQueue ["*", "b", "c"] ["a", "b", "b", "c"] = true ∧
    matchesGreedy ["*", "b", "c"] ["a", "b", "b", "c"] = false := by
  constructor
  · simp +decide [-Prod.mk_zero_zero, -Prod.mk_one_one, matchesQueue, queueGo,
      starTargets, List.range_succ]
  · simp +decide [matchesGreedy, greedyGo, findFrom, List.findIdx, List.findIdx.go]

/-- **C10, amended.** Restricted to subscription patterns without the `*`
wildcard, the queue-based matcher of `src/common/token_pattern.cpp` and the
greedy matcher of `server/token_pattern.cpp` compute the same boolean result
for every concrete `other` pattern. -/
theorem C10_matchers_agree_star_free (self other : List String)
    (h : "*" ∉ self) :
    matchesQueue self other = matchesGreedy self other :=
  queueGo_single_starFree self other h (self.length) 0 0 (by omega)

/-- Witness for `C10_matchers_agree_star_free` at the pattern `a/+` and the
concrete topic `a/b`. -/
theorem C10_matchers_agree_star_free_witness :
    "*" ∉ ["a", "+"] ∧
      matchesQueue ["a", "+"] ["a", "b"] = matchesGreedy ["a", "+"] ["a", "b"] :=
  ⟨by decide, C10_matchers_agree_star_free ["a", "+"] ["a", "b"] (by decide)⟩

/-! ## Association lists

`std::unordered_map` is modelled as an association list with pairwise
distinct keys; `std::unordered_set` as a duplicate-free list.  Only
membership and lookup, never order, are used by the theorems.
-/

/-- `map.find(k)`. -/
def alookup {α β : Type} [DecidableEq α] : List (α × β) → α → Option β
  | [], _ => none
  | (k, v) :: rest, key => if k = key then some v else alookup rest key

/-- `map[k] = v`: replace the binding of `k`, or append a new one. -/
def aset {α β : Type} [DecidableEq α] : List (α × β) → α → β → List (α × β)
  | [], k, v => [(k, v)]
  | (k', v') :: rest, k, v =>
    if k' = k then (k, v) :: rest else (k', v') :: aset rest k v

/-- `map.erase(k)`: drop the binding of `k`. -/
def aerase {α β : Type} [DecidableEq α] : List (α × β) → α → List (α × β)
  | [], _ => []
  | (k', v') :: rest, k => if k' = k then rest else (k', v') :: aerase rest k

/-- `set.insert(x)`: add `x` unless already present. -/
def sinsert {α : Type} [DecidableEq α] (s : List α) (x : α) : List α :=
  if x ∈ s then s else x :: s

/-- Keys of an association list are pairwise distinct: each head key has no
binding in the tail.  This is the `std::unordered_map` well-formedness. -/
def keysND {α β : Type} [DecidableEq α] : List (α × β) → Prop
  | [] => True
  | (k, _) :: rest => alookup rest k = none ∧ keysND rest

theorem alookup_aset_self {α β : Type} [DecidableEq α]
    (l : List (α × β)) (k : α) (v : β) : alookup (aset l k v) k = some v := by
  induction l with
  | nil => simp [aset, alookup]
  | cons hd tl ih =>
    obtain ⟨k', v'⟩ := hd
    by_cases h : k' = k
    · simp [aset, h, alookup]
    · simp [aset, h, alookup, ih]

theorem alookup_aset_ne {α β : Type} [DecidableEq α]
    (l : List (α × β)) (k k' : α) (v : β) (h : k' ≠ k) :
    alookup (aset l k v) k' = alookup l k' := by
  induction l with
  | nil => simp [aset, alookup, Ne.symm h]
  | cons hd tl ih =>
    obtain ⟨k0, v0⟩ := hd
    by_cases h0 : k0 = k
    · subst h0
      simp [aset, alookup, Ne.symm h]
    · simp only [aset, if_neg h0, alookup]
      by_cases h1 : k0 = k'
      · simp [h1]
      · simp [h1, ih]

theorem alookup_aerase_ne {α β : Type} [DecidableEq α]
    (l : List (α × β)) (k k' : α) (h : k' ≠ k) :
    alookup (aerase l k) k' = alookup l k' := by
  induction l with
  | nil => simp [aerase]
  | cons hd tl ih =>
    obtain ⟨k0, v0⟩ := hd
    by_cases h0 : k0 = k
    · subst h0
      simp [aerase, alookup, Ne.symm h]
    · simp [aerase, h0, alookup, ih]

theorem alookup_none_not_mem {α β : Type} [DecidableEq α]
    (l : List (α × β)) (k : α) (b : β) (h : alookup l k = none) : (k, b) ∉ l := by
  induction l with
  | nil => simp
  | cons hd tl ih =>
    obtain ⟨k0, v0⟩ := hd
    by_cases h0 : k0 = k
    · simp [alookup, h0] at h
    · simp only [alookup, if_neg h0] at h
      simp only [List.mem_cons, not_or]
      exact ⟨fun hc => h0 (congrArg Prod.fst hc).symm, ih h⟩

theorem keysND_aset {α β : Type} [DecidableEq α]
    (l : List (α × β)) (k : α) (v : β) (h : keysND l) : keysND (aset l k v) := by
  induction l with
  | nil => simp [aset, keysND, alookup]
  | cons hd tl ih =>
    obtain ⟨k0, v0⟩ := hd
    obtain ⟨h1, h2⟩ := h
    by_cases h0 : k0 = k
    · subst h0
      simpa [aset, keysND] using ⟨h1, h2⟩
    · simp only [aset, if_neg h0, keysND]
      refine ⟨?_, ih h2⟩
      rw [alookup_aset_ne tl k k0 v h0]
      exact h1

theorem keysND_aerase {α β : Type} [DecidableEq α]
    (l : List (α × β)) (k : α) (h : keysND l) : keysND (aerase l k) := by
  induction l with
  | nil => simp [aerase, keysND]
  | cons hd tl ih =>
    obtain ⟨k0, v0⟩ := hd
    obtain ⟨h1, h2⟩ := h
    by_cases h0 : k0 = k
    · simpa [aerase, h0] using h2
    · simp only [aerase, if_neg h0, keysND]
      refine ⟨?_, ih h2⟩
      rw [alookup_aerase_ne tl k k0 h0]
      exact h1

theorem mem_aset {α β : Type} [DecidableEq α]
    (l : List (α × β)) (k : α) (v : β) :
    ∀ pb ∈ aset l k v, pb = (k, v) ∨ pb ∈ l := by
  induction l with
  | nil => simp [aset]
  | cons hd tl ih =>
    obtain ⟨k0, v0⟩ := hd
    by_cases h0 : k0 = k
    · simp only [aset, if_pos h0]
      intro pb hpb
      rcases List.mem_cons.mp hpb with h | h
      · exact Or.inl h
      · exact Or.inr (List.mem_cons.mpr (Or.inr h))
    · simp only [aset, if_neg h0]
      intro pb hpb
      rcases List.mem_cons.mp hpb with h | h
      · exact Or.inr (List.mem_cons.mpr (Or.inl h))
      · rcases ih pb h with h | h
        · exact Or.inl h
        · exact Or.inr (List.mem_cons.mpr (Or.inr h))

theorem mem_aset_keysND {α β : Type} [DecidableEq α]
    (l : List (α × β)) (k : α) (v : β) (hn : keysND l) :
    ∀ pb ∈ aset l k v, pb = (k, v) ∨ (pb ∈ l ∧ pb.1 ≠ k) := by
  induction l with
  | nil => simp [aset]
  | cons hd tl ih =>
    obtain ⟨k0, v0⟩ := hd
    obtain ⟨h1, h2⟩ := hn
    by_cases h0 : k0 = k
    · subst h0
      simp only [aset, if_pos rfl]
      intro pb hpb
      rcases List.mem_cons.mp hpb with h | h
      · exact Or.inl h
      · refine Or.inr ⟨List.mem_cons.mpr (Or.inr h), ?_⟩
        intro hc
        exact alookup_none_not_mem tl k0 pb.2 h1 (by rw [← hc]; exact h)
    · simp only [aset, if_neg h0]
      intro pb hpb
      rcases List.mem_cons.mp hpb with h | h
      · exact Or.inr ⟨List.mem_cons.mpr (Or.inl h), by simp [h, h0]⟩
      · rcases ih h2 pb h with h | h
        · exact Or.inl h
        · exact Or.inr ⟨List.mem_cons.mpr (Or.inr h.1), h.2⟩

theorem mem_aerase {α β : Type} [DecidableEq α]
    (l : List (α × β)) (k : α) :
    ∀ pb ∈ aerase l k, pb ∈ l := by
  induction l with
  | nil => simp [aerase]
  | cons hd tl ih =>
    obtain ⟨k0, v0⟩ := hd
    by_cases h0 : k0 = k
    · simp only [aerase, if_pos h0]
      intro pb hpb
      exact List.mem_cons.mpr (Or.inr hpb)
    · simp only [aerase, if_neg h0]
      intro pb hpb
      rcases List.mem_cons.mp hpb with h | h
      · exact List.mem_cons.mpr (Or.inl h)
      · exact List.mem_cons.mpr (Or.inr (ih pb h))

theorem alookup_some_mem {α β : Type} [DecidableEq α]
    (l : List (α × β)) (k : α) (v : β) (h : alookup l k = some v) : (k, v) ∈ l := by
  induction l with
  | nil => simp [alookup] at h
  | cons hd tl ih =>
    obtain ⟨k0, v0⟩ := hd
    by_cases h0 : k0 = k
    · subst h0
      simp only [alookup, if_pos rfl] at h
      obtain rfl : v0 = v := Option.some.inj h
      exact List.mem_cons_self _ _
    · simp only [alookup, if_neg h0] at h
      exact List.mem_cons.mpr (Or.inr (ih h))

theorem mem_alookup_keysND {α β : Type} [DecidableEq α]
    (l : List (α × β)) (k : α) (v : β) (hn : keysND l)
    (h : (k, v) ∈ l) : alookup l k = some v := by
  induction l with
  | nil => simp at h
  | cons hd tl ih =>
    obtain ⟨k0, v0⟩ := hd
    obtain ⟨h1, h2⟩ := hn
    rcases List.mem_cons.mp h with h | h
    · simp only [Prod.mk.injEq] at h
      obtain ⟨rfl, rfl⟩ := h
      simp [alookup]
    · by_cases h0 : k0 = k
      · exact absurd h (h0 ▸ alookup_none_not_mem tl k0 v (h0 ▸ h1))
      · simp only [alookup, if_neg h0]
        exact ih h2 h

theorem alookup_aerase_self {α β : Type} [DecidableEq α]
    (l : List (α × β)) (k : α) (h : keysND l) :
    alookup (aerase l k) k = none := by
  induction l with
  | nil => simp [aerase, alookup]
  | cons hd tl ih =>
    obtain ⟨k0, v0⟩ := hd
    obtain ⟨h1, h2⟩ := h
    by_cases h0 : k0 = k
    · subst h0
      simpa [aerase] using h1
    · simp only [aerase, if_neg h0, alookup, if_neg h0]
      exact ih h2

theorem mem_sinsert {α : Type} [DecidableEq α] (s : List α) (x y : α) :
    y ∈ sinsert s x ↔ y = x ∨ y ∈ s := by
  by_cases h : x ∈ s
  · simp only [sinsert, if_pos h]
    constructor
    · exact Or.inr
    · rintro (rfl | hy)
      · exact h
      · exact hy
  · simp [sinsert, h]

theorem nodup_sinsert {α : Type} [DecidableEq α] (s : List α) (x : α)
    (h : s.Nodup) : (sinsert s x).Nodup := by
  by_cases hx : x ∈ s
  · simpa [sinsert, hx] using h
  · simp [sinsert, hx, h]

/-! ## Subscribers registry (`server/subscribers_registry.cpp`)

`SubscriberInfo` records are owned by `id_subscribers_` and are unique per
id, so `shared_ptr` identity is modelled by the id string.  `sock_subscribers_`
and the `topic_subscribers_` buckets hold ids in place of the shared pointers.
Patterns are token lists; `unordered_set<TokenPattern>` is a duplicate-free
list of token lists.
-/

/-- A parsed topic pattern: the token list. -/
abbrev Pattern := List String

/-- `SubscribersRegistry::SubscriberInfo` (id kept as the association key). -/
structure SubInfo where
  sockfd : Int
  topics : List Pattern
deriving DecidableEq

/-- `SubscriberInfo::is_connected`: `sockfd > 0`. -/
def SubInfo.isConnected (r : SubInfo) : Bool :=
  r.sockfd > 0

/-- The three indices of `SubscribersRegistry`. -/
structure Registry where
  sockSubs : List (Int × String)
  idSubs : List (String × SubInfo)
  topicSubs : List (Pattern × List String)
deriving DecidableEq

/-- The initial, empty registry. -/
def emptyRegistry : Registry :=
  ⟨[], [], []⟩

/-- `SubscribersRegistry::get_subscriber_by_sockfd` (lines 4-11): resolve the
descriptor through `sock_subscribers_`; `none` models the thrown
`runtime_error`.  Following the `shared_ptr` is the `idSubs` lookup. -/
def getSubscriberBySockfd (s : Registry) (fd : Int) : Option (String × SubInfo) :=
  match alookup s.sockSubs fd with
  | none => none
  | some id =>
    match alookup s.idSubs id with
    | none => none
    | some r => some (id, r)

/-- `SubscribersRegistry::connect_subscriber` (lines 13-30): bind an existing
detached record, reject an attached one (`none` = thrown exception), or
create a fresh record with no topics. -/
def connectSubscriber (s : Registry) (fd : Int) (id : String) : Option Registry :=
  match alookup s.idSubs id with
  | some r =>
    if r.isConnected then none
    else some { s with idSubs := aset s.idSubs id { r with sockfd := fd },
                       sockSubs := aset s.sockSubs fd id }
  | none => some { s with idSubs := aset s.idSubs id ⟨fd, []⟩,
                          sockSubs := aset s.sockSubs fd id }

/-- `SubscribersRegistry::disconnect_subscriber` (lines 32-42): unknown
descriptor is a no-op; otherwise set the sentinel `sockfd = -1` on the record
and drop the descriptor binding. -/
def disconnectSubscriber (s : Registry) (fd : Int) : Registry :=
  match alookup s.sockSubs fd with
  | none => s
  | some id =>
    let idSubs2 :=
      match alookup s.idSubs id with
      | some r => aset s.idSubs id { r with sockfd := -1 }
      | none => s.idSubs
    { s with idSubs := idSubs2, sockSubs := aerase s.sockSubs fd }

/-- `SubscribersRegistry::subscribe_to_topic` (lines 49-55): insert the
pattern into the subscriber's own set and the subscriber into the
pattern's bucket (`topic_subscribers_[topic].insert`). -/
def subscribeToTopic (s : Registry) (fd : Int) (pat : Pattern) : Option Registry :=
  match getSubscriberBySockfd s fd with
  | none => none
  | some (id, r) =>
    some { s with
      idSubs := aset s.idSubs id { r with topics := sinsert r.topics pat },
      topicSubs :=
        aset s.topicSubs pat (sinsert ((alookup s.topicSubs pat).getD []) id) }

/-- `SubscribersRegistry::unsubscribe_from_topic` (lines 57-71): erase the
pattern from the subscriber's own set; then, if a bucket for the pattern
exists, erase the whole bucket when its size is 1 and otherwise remove this
subscriber from it.  Note the source deletes a size-1 bucket without checking
that its single member is the calling subscriber. -/
def unsubscribeFromTopic (s : Registry) (fd : Int) (pat : Pattern) : Option Registry :=
  match getSubscriberBySockfd s fd with
  | none => none
  | some (id, r) =>
    some { s with
      idSubs := aset s.idSubs id { r with topics := r.topics.erase pat },
      topicSubs :=
        match alookup s.topicSubs pat with
        | none => s.topicSubs
        | some bucket =>
          if bucket.length = 1 then aerase s.topicSubs pat
          else aset s.topicSubs pat (bucket.erase id) }

/-- `aerase` under distinct keys keeps exactly the bindings of other keys. -/
theorem mem_aerase_keysND {α β : Type} [DecidableEq α]
    (l : List (α × β)) (k : α) (hn : keysND l) :
    ∀ pb ∈ aerase l k, pb ∈ l ∧ pb.1 ≠ k := by
  induction l with
  | nil => simp [aerase]
  | cons hd tl ih =>
    obtain ⟨k0, v0⟩ := hd
    obtain ⟨h1, h2⟩ := hn
    by_cases h0 : k0 = k
    · subst h0
      simp only [aerase, if_pos rfl]
      intro pb hpb
      refine ⟨List.mem_cons.mpr (Or.inr hpb), ?_⟩
      intro hc
      exact alookup_none_not_mem tl k0 pb.2 h1 (by rw [← hc]; exact hpb)
    · simp only [aerase, if_neg h0]
      intro pb hpb
      rcases List.mem_cons.mp hpb with h | h
      · exact ⟨List.mem_cons.mpr (Or.inl h), by simp [h, h0]⟩
      · obtain ⟨hmem, hne⟩ := ih h2 pb h
        exact ⟨List.mem_cons.mpr (Or.inr hmem), hne⟩

/-- `SubscribersRegistry::retrieve_topic_subscribers` (lines 73-89): scan the
pattern index; for each bucket whose pattern matches the topic, add the
descriptors of its connected subscribers to the result set. -/
def retrieveTopicSubscribers (s : Registry) (topic : Pattern) : List Int :=
  s.topicSubs.foldl
    (fun acc pb =>
      if matchesGreedy pb.1 topic then
        pb.2.foldl
          (fun acc2 id =>
            match alookup s.idSubs id with
            | some r => if r.isConnected then sinsert acc2 r.sockfd else acc2
            | none => acc2)
          acc
      else acc)
    []

/-- The registry coherence invariant of the spec (§3.1): well-formed indices,
and a subscriber appears in the bucket for pattern `p` iff `p` is in that
subscriber's own pattern set. -/
structure RegInv (s : Registry) : Prop where
  idKeys : keysND s.idSubs
  topicKeys : keysND s.topicSubs
  bucketNodup : ∀ pb ∈ s.topicSubs, pb.2.Nodup
  topicsNodup : ∀ ir ∈ s.idSubs, ir.2.topics.Nodup
  bucketSound : ∀ pb ∈ s.topicSubs, ∀ id ∈ pb.2,
    ∃ r, alookup s.idSubs id = some r ∧ pb.1 ∈ r.topics
  bucketComplete : ∀ ir ∈ s.idSubs, ∀ pat ∈ ir.2.topics,
    ∃ b, alookup s.topicSubs pat = some b ∧ ir.1 ∈ b

/-- The empty registry satisfies the invariant. -/
theorem regInv_empty : RegInv emptyRegistry := by
  constructor <;> simp [emptyRegistry, keysND]

/-- `connect_subscriber` preserves the coherence invariant: it never touches
any pattern set or bucket, it only binds descriptors. -/
theorem connect_preserves_inv (s : Registry) (fd : Int) (id : String)
    (hInv : RegInv s) :
    ∀ s', connectSubscriber s fd id = some s' → RegInv s' := by
  intro s' hs'
  unfold connectSubscriber at hs'
  cases hid : alookup s.idSubs id with
  | some r =>
    rw [hid] at hs'
    simp only [] at hs'
    by_cases hconn : r.isConnected
    · rw [if_pos hconn] at hs'
      exact absurd hs' (by simp)
    · rw [if_neg hconn] at hs'
      obtain rfl := Option.some.inj hs'
      have hmem : (id, r) ∈ s.idSubs := alookup_some_mem _ _ _ hid
      constructor
      · exact keysND_aset _ _ _ hInv.idKeys
      · exact hInv.topicKeys
      · exact hInv.bucketNodup
      · intro ir hir
        rcases mem_aset_keysND _ _ _ hInv.idKeys ir hir with h | h
        · subst h
          exact hInv.topicsNodup (id, r) hmem
        · exact hInv.topicsNodup ir h.1
      · intro pb hpb id' hid'
        obtain ⟨r0, hr0, hr0p⟩ := hInv.bucketSound pb hpb id' hid'
        by_cases hii : id' = id
        · subst hii
          rw [hid] at hr0
          have hrr : r0 = r := (Option.some.inj hr0).symm
          exact ⟨{ r with sockfd := fd }, alookup_aset_self _ _ _, hrr ▸ hr0p⟩
        · exact ⟨r0, by rw [alookup_aset_ne _ _ _ _ hii]; exact hr0, hr0p⟩
      · intro ir hir pat hpat
        rcases mem_aset_keysND _ _ _ hInv.idKeys ir hir with h | h
        · subst h
          exact hInv.bucketComplete (id, r) hmem pat hpat
        · exact hInv.bucketComplete ir h.1 pat hpat
  | none =>
    rw [hid] at hs'
    simp only [] at hs'
    obtain rfl := Option.some.inj hs'
    constructor
    · exact keysND_aset _ _ _ hInv.idKeys
    · exact hInv.topicKeys
    · exact hInv.bucketNodup
    · intro ir hir
      rcases mem_aset_keysND _ _ _ hInv.idKeys ir hir with h | h
      · subst h
        simp
      · exact hInv.topicsNodup ir h.1
    · intro pb hpb id' hid'
      obtain ⟨r0, hr0, hr0p⟩ := hInv.bucketSound pb hpb id' hid'
      by_cases hii : id' = id
      · subst hii
        rw [hid] at hr0
        exact absurd hr0 (by simp)
      · exact ⟨r0, by rw [alookup_aset_ne _ _ _ _ hii]; exact hr0, hr0p⟩
    · intro ir hir pat hpat
      rcases mem_aset_keysND _ _ _ hInv.idKeys ir hir with h | h
      · subst h
        simp at hpat
      · exact hInv.bucketComplete ir h.1 pat hpat

/-- `disconnect_subscriber` preserves the coherence invariant: it only
changes one record's descriptor to the sentinel. -/
theorem disconnect_preserves_inv (s : Registry) (fd : Int)
    (hInv : RegInv s) : RegInv (disconnectSubscriber s fd) := by
  unfold disconnectSubscriber
  cases hfd : alookup s.sockSubs fd with
  | none => exact hInv
  | some id =>
    cases hid : alookup s.idSubs id with
    | none =>
      simp only [hid]
      constructor
      · exact hInv.idKeys
      · exact hInv.topicKeys
      · exact hInv.bucketNodup
      · exact hInv.topicsNodup
      · exact hInv.bucketSound
      · exact hInv.bucketComplete
    | some r =>
      have hmem : (id, r) ∈ s.idSubs := alookup_some_mem _ _ _ hid
      simp only [hid]
      constructor
      · exact keysND_aset _ _ _ hInv.idKeys
      · exact hInv.topicKeys
      · exact hInv.bucketNodup
      · intro ir hir
        rcases mem_aset_keysND _ _ _ hInv.idKeys ir hir with h | h
        · subst h
          exact hInv.topicsNodup (id, r) hmem
        · exact hInv.topicsNodup ir h.1
      · intro pb hpb id' hid'
        obtain ⟨r0, hr0, hr0p⟩ := hInv.bucketSound pb hpb id' hid'
        by_cases hii : id' = id
        · subst hii
          rw [hid] at hr0
          have hrr : r0 = r := (Option.some.inj hr0).symm
          exact ⟨{ r with sockfd := -1 }, alookup_aset_self _ _ _, hrr ▸ hr0p⟩
        · exact ⟨r0, by rw [alookup_aset_ne _ _ _ _ hii]; exact hr0, hr0p⟩
      · intro ir hir pat hpat
        rcases mem_aset_keysND _ _ _ hInv.idKeys ir hir with h | h
        · subst h
          exact hInv.bucketComplete (id, r) hmem pat hpat
        · exact hInv.bucketComplete ir h.1 pat hpat

/-- Inversion of `get_subscriber_by_sockfd`: success means the descriptor is
bound and the bound record exists. -/
theorem getSubscriberBySockfd_eq (s : Registry) (fd : Int) (id : String)
    (r : SubInfo) :
    getSubscriberBySockfd s fd = some (id, r) ↔
      alookup s.sockSubs fd = some id ∧ alookup s.idSubs id = some r := by
  unfold getSubscriberBySockfd
  cases hfd : alookup s.sockSubs fd with
  | none => simp
  | some id0 =>
    cases hid : alookup s.idSubs id0 with
    | none =>
      simp only [hid]
      constructor
      · intro h
        exact absurd h (by simp)
      · rintro ⟨h1, h2⟩
        obtain rfl := Option.some.inj h1
        rw [hid] at h2
        exact absurd h2 (by simp)
    | some r0 =>
      simp only [hid, Option.some.injEq, Prod.mk.injEq]
      constructor
      · rintro ⟨rfl, rfl⟩
        exact ⟨rfl, hid⟩
      · rintro ⟨h1, h2⟩
        obtain rfl := h1
        rw [hid] at h2
        exact ⟨rfl, Option.some.inj h2⟩

/-- `subscribe_to_topic` preserves the coherence invariant: the pattern is
added both to the subscriber's set and to the pattern's bucket. -/
theorem subscribe_preserves_inv (s : Registry) (fd : Int) (pat : Pattern)
    (hInv : RegInv s) :
    ∀ s', subscribeToTopic s fd pat = some s' → RegInv s' := by
  intro s' hs'
  unfold subscribeToTopic at hs'
  cases hget : getSubscriberBySockfd s fd with
  | none => rw [hget] at hs'; exact absurd hs' (by simp)
  | some p =>
    obtain ⟨id, r⟩ := p
    rw [hget] at hs'
    simp only [] at hs'
    obtain rfl := Option.some.inj hs'
    obtain ⟨hfd, hid⟩ := (getSubscriberBySockfd_eq s fd id r).mp hget
    have hmem : (id, r) ∈ s.idSubs := alookup_some_mem _ _ _ hid
    have hb0nodup : ((alookup s.topicSubs pat).getD []).Nodup := by
      cases hb : alookup s.topicSubs pat with
      | none => simp
      | some b =>
        simpa using hInv.bucketNodup (pat, b) (alookup_some_mem _ _ _ hb)
    constructor
    · exact keysND_aset _ _ _ hInv.idKeys
    · exact keysND_aset _ _ _ hInv.topicKeys
    · intro pb hpb
      rcases mem_aset_keysND _ _ _ hInv.topicKeys pb hpb with h | h
      · subst h
        exact nodup_sinsert _ _ hb0nodup
      · exact hInv.bucketNodup pb h.1
    · intro ir hir
      rcases mem_aset_keysND _ _ _ hInv.idKeys ir hir with h | h
      · subst h
        exact nodup_sinsert _ _ (hInv.topicsNodup (id, r) hmem)
      · exact hInv.topicsNodup ir h.1
    · intro pb hpb id' hid'
      rcases mem_aset_keysND _ _ _ hInv.topicKeys pb hpb with h | h
      · subst h
        rcases (mem_sinsert _ _ _).mp hid' with h | h
        · subst h
          refine ⟨{ r with topics := sinsert r.topics pat },
            alookup_aset_self _ _ _, ?_⟩
          exact (mem_sinsert _ _ _).mpr (Or.inl rfl)
        · cases hb : alookup s.topicSubs pat with
          | none => rw [hb] at h; simp at h
          | some b =>
            rw [hb] at h
            simp only [Option.getD_some] at h
            obtain ⟨r0, hr0, hr0p⟩ :=
              hInv.bucketSound (pat, b) (alookup_some_mem _ _ _ hb) id' h
            by_cases hii : id' = id
            · subst hii
              refine ⟨{ r with topics := sinsert r.topics pat },
                alookup_aset_self _ _ _, ?_⟩
              exact (mem_sinsert _ _ _).mpr (Or.inl rfl)
            · exact ⟨r0, by rw [alookup_aset_ne _ _ _ _ hii]; exact hr0, hr0p⟩
      · obtain ⟨r0, hr0, hr0p⟩ := hInv.bucketSound pb h.1 id' hid'
        by_cases hii : id' = id
        · subst hii
          rw [hid] at hr0
          have hrr : r0 = r := (Option.some.inj hr0).symm
          refine ⟨{ r with topics := sinsert r.topics pat },
            alookup_aset_self _ _ _, ?_⟩
          exact (mem_sinsert _ _ _).mpr (Or.inr (hrr ▸ hr0p))
        · exact ⟨r0, by rw [alookup_aset_ne _ _ _ _ hii]; exact hr0, hr0p⟩
    · intro ir hir pat' hpat'
      rcases mem_aset_keysND _ _ _ hInv.idKeys ir hir with h | h
      · subst h
        rcases (mem_sinsert _ _ _).mp hpat' with h | h
        · subst h
          refine ⟨sinsert ((alookup s.topicSubs pat').getD []) id,
            alookup_aset_self _ _ _, ?_⟩
          exact (mem_sinsert _ _ _).mpr (Or.inl rfl)
        · obtain ⟨b', hb', hid'⟩ := hInv.bucketComplete (id, r) hmem pat' h
          by_cases hpp : pat' = pat
          · subst hpp
            refine ⟨sinsert ((alookup s.topicSubs pat').getD []) id,
              alookup_aset_self _ _ _, ?_⟩
            exact (mem_sinsert _ _ _).mpr (Or.inl rfl)
          · exact ⟨b', by rw [alookup_aset_ne _ _ _ _ hpp]; exact hb', hid'⟩
      · obtain ⟨b', hb', hirb'⟩ := hInv.bucketComplete ir h.1 pat' hpat'
        by_cases hpp : pat' = pat
        · subst hpp
          refine ⟨_, alookup_aset_self _ _ _, ?_⟩
          rw [hb']
          simp only [Option.getD_some]
          exact (mem_sinsert _ _ _).mpr (Or.inr hirb')
        · exact ⟨b', by rw [alookup_aset_ne _ _ _ _ hpp]; exact hb', hirb'⟩

/-- `unsubscribe_from_topic` preserves the coherence invariant, **provided**
the calling subscriber actually holds the pattern.  (Without that premise the
source can delete a size-1 bucket that belongs to a different subscriber; see
the counterexample for C6.) -/
theorem unsubscribe_preserves_inv (s : Registry) (fd : Int) (pat : Pattern)
    (hInv : RegInv s)
    (hpre : ∀ id r, alookup s.sockSubs fd = some id →
      alookup s.idSubs id = some r → pat ∈ r.topics) :
    ∀ s', unsubscribeFromTopic s fd pat = some s' → RegInv s' := by
  intro s' hs'
  unfold unsubscribeFromTopic at hs'
  cases hget : getSubscriberBySockfd s fd with
  | none => rw [hget] at hs'; exact absurd hs' (by simp)
  | some p =>
    obtain ⟨id, r⟩ := p
    rw [hget] at hs'
    simp only [] at hs'
    obtain rfl := Option.some.inj hs'
    obtain ⟨hfd, hid⟩ := (getSubscriberBySockfd_eq s fd id r).mp hget
    have hmem : (id, r) ∈ s.idSubs := alookup_some_mem _ _ _ hid
    have hpat : pat ∈ r.topics := hpre id r hfd hid
    obtain ⟨bucket, hbk, hidbk⟩ := hInv.bucketComplete (id, r) hmem pat hpat
    have hbmem : (pat, bucket) ∈ s.topicSubs := alookup_some_mem _ _ _ hbk
    have hbNodup : bucket.Nodup := hInv.bucketNodup (pat, bucket) hbmem
    have hTopNodup : r.topics.Nodup := hInv.topicsNodup (id, r) hmem
    simp only [hbk]
    by_cases hlen : bucket.length = 1
    · -- the source erases the whole bucket
      rw [if_pos hlen]
      have hbeq : bucket = [id] := by
        cases bucket with
        | nil => simp at hlen
        | cons a tl =>
          cases tl with
          | nil =>
            simp at hidbk
            simp [hidbk]
          | cons b tl2 => simp at hlen
      constructor
      · exact keysND_aset _ _ _ hInv.idKeys
      · exact keysND_aerase _ _ hInv.topicKeys
      · intro pb hpb
        exact hInv.bucketNodup pb (mem_aerase _ _ pb hpb)
      · intro ir hir
        rcases mem_aset_keysND _ _ _ hInv.idKeys ir hir with h | h
        · subst h
          exact hTopNodup.erase pat
        · exact hInv.topicsNodup ir h.1
      · intro pb hpb id' hid'
        obtain ⟨hpbmem, hpbne⟩ := mem_aerase_keysND _ _ hInv.topicKeys pb hpb
        obtain ⟨r0, hr0, hr0p⟩ := hInv.bucketSound pb hpbmem id' hid'
        by_cases hii : id' = id
        · subst hii
          rw [hid] at hr0
          have hrr : r0 = r := (Option.some.inj hr0).symm
          refine ⟨{ r with topics := r.topics.erase pat },
            alookup_aset_self _ _ _, ?_⟩
          exact (hTopNodup.mem_erase_iff).mpr ⟨hpbne, hrr ▸ hr0p⟩
        · exact ⟨r0, by rw [alookup_aset_ne _ _ _ _ hii]; exact hr0, hr0p⟩
      · intro ir hir pat' hpat'
        rcases mem_aset_keysND _ _ _ hInv.idKeys ir hir with h | h
        · subst h
          simp only [] at hpat'
          obtain ⟨hne, hmem'⟩ := (hTopNodup.mem_erase_iff).mp hpat'
          obtain ⟨b', hb', hid'⟩ := hInv.bucketComplete (id, r) hmem pat' hmem'
          exact ⟨b', by rw [alookup_aerase_ne _ _ _ hne]; exact hb', hid'⟩
        · obtain ⟨b', hb', hirb'⟩ := hInv.bucketComplete ir h.1 pat' hpat'
          by_cases hpp : pat' = pat
          · subst hpp
            rw [hbk] at hb'
            obtain rfl := Option.some.inj hb'
            rw [hbeq] at hirb'
            simp at hirb'
            exact absurd hirb' h.2
          · exact ⟨b', by rw [alookup_aerase_ne _ _ _ hpp]; exact hb', hirb'⟩
    · -- the source removes this subscriber from the bucket
      rw [if_neg hlen]
      constructor
      · exact keysND_aset _ _ _ hInv.idKeys
      · exact keysND_aset _ _ _ hInv.topicKeys
      · intro pb hpb
        rcases mem_aset_keysND _ _ _ hInv.topicKeys pb hpb with h | h
        · subst h
          exact hbNodup.erase id
        · exact hInv.bucketNodup pb h.1
      · intro ir hir
        rcases mem_aset_keysND _ _ _ hInv.idKeys ir hir with h | h
        · subst h
          exact hTopNodup.erase pat
        · exact hInv.topicsNodup ir h.1
      · intro pb hpb id' hid'
        rcases mem_aset_keysND _ _ _ hInv.topicKeys pb hpb with h | h
        · subst h
          simp only [] at hid'
          obtain ⟨hne, hmem'⟩ := (hbNodup.mem_erase_iff).mp hid'
          obtain ⟨r0, hr0, hr0p⟩ := hInv.bucketSound (pat, bucket) hbmem id' hmem'
          exact ⟨r0, by rw [alookup_aset_ne _ _ _ _ hne]; exact hr0, hr0p⟩
        · obtain ⟨r0, hr0, hr0p⟩ := hInv.bucketSound pb h.1 id' hid'
          by_cases hii : id' = id
          · subst hii
            rw [hid] at hr0
            have hrr : r0 = r := (Option.some.inj hr0).symm
            refine ⟨{ r with topics := r.topics.erase pat },
              alookup_aset_self _ _ _, ?_⟩
            exact (hTopNodup.mem_erase_iff).mpr ⟨h.2, hrr ▸ hr0p⟩
          · exact ⟨r0, by rw [alookup_aset_ne _ _ _ _ hii]; exact hr0, hr0p⟩
      · intro ir hir pat' hpat'
        rcases mem_aset_keysND _ _ _ hInv.idKeys ir hir with h | h
        · subst h
          simp only [] at hpat'
          obtain ⟨hne, hmem'⟩ := (hTopNodup.mem_erase_iff).mp hpat'
          obtain ⟨b', hb', hid'⟩ := hInv.bucketComplete (id, r) hmem pat' hmem'
          exact ⟨b', by rw [alookup_aset_ne _ _ _ _ hne]; exact hb', hid'⟩
        · obtain ⟨b', hb', hirb'⟩ := hInv.bucketComplete ir h.1 pat' hpat'
          by_cases hpp : pat' = pat
          · subst hpp
            rw [hbk] at hb'
            obtain rfl := Option.some.inj hb'
            refine ⟨bucket.erase id, alookup_aset_self _ _ _, ?_⟩
            exact (hbNodup.mem_erase_iff).mpr ⟨h.2, hirb'⟩
          · exact ⟨b', by rw [alookup_aset_ne _ _ _ _ hpp]; exact hb', hirb'⟩

/-- The registry mutations reachable from the server loop
(`handle_tcp_request` / `disconnect_client` in `src/server/server.cpp`). -/
inductive RegOp where
  | connect (fd : Int) (id : String)
  | disconnect (fd : Int)
  | subscribe (fd : Int) (pat : Pattern)
  | unsubscribe (fd : Int) (pat : Pattern)

/-- Apply one operation; thrown exceptions are caught by the server loop
before any mutation happens, leaving the registry unchanged. -/
def applyOp (s : Registry) : RegOp → Registry
  | .connect fd id => (connectSubscriber s fd id).getD s
  | .disconnect fd => disconnectSubscriber s fd
  | .subscribe fd pat => (subscribeToTopic s fd pat).getD s
  | .unsubscribe fd pat => (unsubscribeFromTopic s fd pat).getD s

/-- Side condition for the amended C6: an unsubscribe must be issued by a
subscriber that holds the pattern (nothing is required of the other
operations, or of unsubscribes that throw). -/
def opOk (s : Registry) : RegOp → Bool
  | .unsubscribe fd pat =>
    match alookup s.sockSubs fd with
    | none => true
    | some id =>
      match alookup s.idSubs id with
      | none => true
      | some r => pat ∈ r.topics
  | _ => true

/-- Every operation of the sequence satisfies its side condition in the state
where it executes. -/
def okSeq : Registry → List RegOp → Bool
  | _, [] => true
  | s, op :: rest => opOk s op && okSeq (applyOp s op) rest

/-- One operation with its side condition preserves the invariant. -/
theorem applyOp_preserves_inv (s : Registry) (op : RegOp)
    (hInv : RegInv s) (hok : opOk s op = true) : RegInv (applyOp s op) := by
  cases op with
  | connect fd id =>
    show RegInv ((connectSubscriber s fd id).getD s)
    cases h : connectSubscriber s fd id with
    | none => simpa using hInv
    | some s' => simpa using connect_preserves_inv s fd id hInv s' h
  | disconnect fd => exact disconnect_preserves_inv s fd hInv
  | subscribe fd pat =>
    show RegInv ((subscribeToTopic s fd pat).getD s)
    cases h : subscribeToTopic s fd pat with
    | none => simpa using hInv
    | some s' => simpa using subscribe_preserves_inv s fd pat hInv s' h
  | unsubscribe fd pat =>
    show RegInv ((unsubscribeFromTopic s fd pat).getD s)
    cases h : unsubscribeFromTopic s fd pat with
    | none => simpa using hInv
    | some s' =>
      have hpre : ∀ id r, alookup s.sockSubs fd = some id →
          alookup s.idSubs id = some r → pat ∈ r.topics := by
        intro id r h1 h2
        unfold opOk at hok
        simp only [h1, h2] at hok
        exact of_decide_eq_true hok
      simpa using unsubscribe_preserves_inv s fd pat hInv hpre s' h

/-- **C6, amended.** Every sequence of attach/detach/subscribe/unsubscribe
operations in which each unsubscribe targets a pattern held by the issuing
subscriber preserves the registry coherence invariant: a subscriber appears
in the pattern-index bucket for `p` iff `p` is in its own pattern set
(`RegInv` also carries the structural well-formedness of the three indices).
The side condition is necessary: the source deletes a size-1 bucket without
checking that its single member is the caller (see `C6_counterexample`). -/
theorem C6_registry_coherence_preserved (s : Registry) (ops : List RegOp)
    (hInv : RegInv s) (hok : okSeq s ops = true) :
    RegInv (ops.foldl applyOp s) := by
  induction ops generalizing s with
  | nil => exact hInv
  | cons op rest ih =>
    unfold okSeq at hok
    obtain ⟨h1, h2⟩ := Bool.and_eq_true_iff.mp hok
    exact ih (applyOp s op) (applyOp_preserves_inv s op hInv h1) h2

/-- Witness for `C6_registry_coherence_preserved`: connect, subscribe,
unsubscribe the held pattern, disconnect — starting from the empty registry. -/
theorem C6_registry_coherence_preserved_witness :
    RegInv emptyRegistry ∧
      okSeq emptyRegistry
        [RegOp.connect 1 "a", RegOp.subscribe 1 ["x"],
         RegOp.unsubscribe 1 ["x"], RegOp.disconnect 1] = true ∧
      RegInv ([RegOp.connect 1 "a", RegOp.subscribe 1 ["x"],
         RegOp.unsubscribe 1 ["x"], RegOp.disconnect 1].foldl applyOp
           emptyRegistry) :=
  ⟨regInv_empty, by decide,
    C6_registry_coherence_preserved emptyRegistry
      [RegOp.connect 1 "a", RegOp.subscribe 1 ["x"],
       RegOp.unsubscribe 1 ["x"], RegOp.disconnect 1]
      regInv_empty (by decide)⟩

/-- **C6, counterexample.** The claim as stated fails: after
`connect(1,"a"); connect(2,"b"); subscribe(1, x); unsubscribe(2, x)`, the
unsubscribe issued by subscriber `"b"` — which never subscribed to `x` —
deletes the size-1 bucket `{"a"}` of pattern `x`, while `x` is still in
`"a"`'s own pattern set: the coherence invariant is broken and another
subscriber's pattern-index entry was removed. -/
theorem C6_counterexample :
    ∃ s4 r,
      ((connectSubscriber emptyRegistry 1 "a").bind (fun s1 =>
        (connectSubscriber s1 2 "b").bind (fun s2 =>
          (subscribeToTopic s2 1 ["x"]).bind (fun s3 =>
            unsubscribeFromTopic s3 2 ["x"])))) = some s4 ∧
      alookup s4.idSubs "a" = some r ∧ ["x"] ∈ r.topics ∧
      alookup s4.topicSubs ["x"] = none := by
  refine ⟨_, _, rfl, rfl, ?_, ?_⟩
  · decide
  · decide

/-- **C7.** Reattach preserves subscriptions: after
`attach(d1, id); subscribe(d1, p); detach(d1); attach(d2, id)` the record
reachable through descriptor `d2` still holds `p`.  The only requirement is
that the initial attach does not throw, i.e. `id` is unknown or detached. -/
theorem C7_reattach_preserves_subscriptions (s : Registry) (id : String)
    (d1 d2 : Int) (p : Pattern)
    (hfree : ∀ r, alookup s.idSubs id = some r → r.isConnected = false) :
    ∃ s1 s2 s4 r,
      connectSubscriber s d1 id = some s1 ∧
      subscribeToTopic s1 d1 p = some s2 ∧
      connectSubscriber (disconnectSubscriber s2 d1) d2 id = some s4 ∧
      getSubscriberBySockfd s4 d2 = some (id, r) ∧ p ∈ r.topics := by
  -- One shape for both connect branches: after the first attach, `d1` is
  -- bound to `id` and `id`'s record has socket `d1` and some topic list `T`.
  have main : ∀ s1 : Registry, ∀ T : List Pattern,
      alookup s1.sockSubs d1 = some id →
      alookup s1.idSubs id = some ⟨d1, T⟩ →
      ∃ s2 s4 r,
        subscribeToTopic s1 d1 p = some s2 ∧
        connectSubscriber (disconnectSubscriber s2 d1) d2 id = some s4 ∧
        getSubscriberBySockfd s4 d2 = some (id, r) ∧ p ∈ r.topics := by
    intro s1 T hfd1 hid1
    have hget1 : getSubscriberBySockfd s1 d1 = some (id, ⟨d1, T⟩) :=
      (getSubscriberBySockfd_eq s1 d1 id ⟨d1, T⟩).mpr ⟨hfd1, hid1⟩
    -- the state after subscribe
    have hsub : subscribeToTopic s1 d1 p =
        some { s1 with
          idSubs := aset s1.idSubs id ⟨d1, sinsert T p⟩,
          topicSubs :=
            aset s1.topicSubs p
              (sinsert ((alookup s1.topicSubs p).getD []) id) } := by
      unfold subscribeToTopic
      rw [hget1]
    -- the state after detach
    have hs3 : disconnectSubscriber
        { s1 with
          idSubs := aset s1.idSubs id ⟨d1, sinsert T p⟩,
          topicSubs :=
            aset s1.topicSubs p
              (sinsert ((alookup s1.topicSubs p).getD []) id) } d1 =
        { s1 with
          idSubs := aset (aset s1.idSubs id ⟨d1, sinsert T p⟩) id
            ⟨-1, sinsert T p⟩,
          sockSubs := aerase s1.sockSubs d1,
          topicSubs :=
            aset s1.topicSubs p
              (sinsert ((alookup s1.topicSubs p).getD []) id) } := by
      unfold disconnectSubscriber
      rw [show alookup
        ({ s1 with
          idSubs := aset s1.idSubs id ⟨d1, sinsert T p⟩,
          topicSubs :=
            aset s1.topicSubs p
              (sinsert ((alookup s1.topicSubs p).getD []) id) } :
            Registry).sockSubs d1 = some id from hfd1]
      simp only [alookup_aset_self]
    -- the state after the second attach
    have hc2 : connectSubscriber
        { s1 with
          idSubs := aset (aset s1.idSubs id ⟨d1, sinsert T p⟩) id
            ⟨-1, sinsert T p⟩,
          sockSubs := aerase s1.sockSubs d1,
          topicSubs :=
            aset s1.topicSubs p
              (sinsert ((alookup s1.topicSubs p).getD []) id) } d2 id =
        some { s1 with
          idSubs := aset (aset (aset s1.idSubs id ⟨d1, sinsert T p⟩) id
            ⟨-1, sinsert T p⟩) id ⟨d2, sinsert T p⟩,
          sockSubs := aset (aerase s1.sockSubs d1) d2 id,
          topicSubs :=
            aset s1.topicSubs p
              (sinsert ((alookup s1.topicSubs p).getD []) id) } := by
      unfold connectSubscriber
      rw [show alookup
        (aset (aset s1.idSubs id ⟨d1, sinsert T p⟩) id ⟨-1, sinsert T p⟩) id =
          some ⟨-1, sinsert T p⟩ from alookup_aset_self _ _ _]
      simp only []
      rw [if_neg (by simp [SubInfo.isConnected])]
    refine ⟨_,
      { s1 with
        idSubs := aset (aset (aset s1.idSubs id ⟨d1, sinsert T p⟩) id
          ⟨-1, sinsert T p⟩) id ⟨d2, sinsert T p⟩,
        sockSubs := aset (aerase s1.sockSubs d1) d2 id,
        topicSubs :=
          aset s1.topicSubs p
            (sinsert ((alookup s1.topicSubs p).getD []) id) },
      ⟨d2, sinsert T p⟩, hsub, ?_, ?_, ?_⟩
    · rw [hs3]
      exact hc2
    · exact (getSubscriberBySockfd_eq _ _ _ _).mpr
        ⟨alookup_aset_self _ _ _, alookup_aset_self _ _ _⟩
    · exact (mem_sinsert _ _ _).mpr (Or.inl rfl)
  cases hid : alookup s.idSubs id with
  | none =>
    have hc1 : connectSubscriber s d1 id =
        some { s with idSubs := aset s.idSubs id ⟨d1, []⟩,
                      sockSubs := aset s.sockSubs d1 id } := by
      unfold connectSubscriber
      rw [hid]
    obtain ⟨s2, s4, r, h1, h2, h3, h4⟩ :=
      main { s with idSubs := aset s.idSubs id ⟨d1, []⟩,
                    sockSubs := aset s.sockSubs d1 id } []
        (alookup_aset_self _ _ _) (alookup_aset_self _ _ _)
    exact ⟨_, s2, s4, r, hc1, h1, h2, h3, h4⟩
  | some r0 =>
    have hnc : ¬r0.isConnected = true := by
      rw [hfree r0 hid]
      simp
    have hc1 : connectSubscriber s d1 id =
        some { s with idSubs := aset s.idSubs id { r0 with sockfd := d1 },
                      sockSubs := aset s.sockSubs d1 id } := by
      unfold connectSubscriber
      rw [hid]
      simp only []
      rw [if_neg hnc]
    obtain ⟨s2, s4, r, h1, h2, h3, h4⟩ :=
      main { s with idSubs := aset s.idSubs id { r0 with sockfd := d1 },
                    sockSubs := aset s.sockSubs d1 id } r0.topics
        (alookup_aset_self _ _ _) (alookup_aset_self _ _ _)
    exact ⟨_, s2, s4, r, hc1, h1, h2, h3, h4⟩

/-- Witness for `C7_reattach_preserves_subscriptions`: fresh id on the empty
registry, descriptors 1 then 2. -/
theorem C7_reattach_preserves_subscriptions_witness :
    (∀ r, alookup emptyRegistry.idSubs "alpha" = some r →
        r.isConnected = false) ∧
      ∃ s1 s2 s4 r,
        connectSubscriber emptyRegistry 1 "alpha" = some s1 ∧
        subscribeToTopic s1 1 ["x", "+"] = some s2 ∧
        connectSubscriber (disconnectSubscriber s2 1) 2 "alpha" = some s4 ∧
        getSubscriberBySockfd s4 2 = some ("alpha", r) ∧ ["x", "+"] ∈ r.topics :=
  ⟨by intro r h; exact absurd h (by simp [emptyRegistry, alookup]),
    C7_reattach_preserves_subscriptions emptyRegistry "alpha" 1 2 ["x", "+"]
      (by intro r h; exact absurd h (by simp [emptyRegistry, alookup]))⟩

/-- Membership in the inner fold of `retrieve_topic_subscribers`: the loop
over one bucket adds exactly the descriptors of its connected members. -/
theorem retrieve_inner_mem (idSubs : List (String × SubInfo))
    (bucket : List String) (acc : List Int) (fd : Int) :
    fd ∈ bucket.foldl
      (fun acc2 id =>
        match alookup idSubs id with
        | some r => if r.isConnected then sinsert acc2 r.sockfd else acc2
        | none => acc2) acc ↔
    fd ∈ acc ∨ ∃ id ∈ bucket, ∃ r, alookup idSubs id = some r ∧
      r.isConnected = true ∧ r.sockfd = fd := by
  induction bucket generalizing acc with
  | nil => simp
  | cons hd tl ih =>
    simp only [List.foldl_cons, ih, List.mem_cons]
    cases hr : alookup idSubs hd with
    | none =>
      constructor
      · rintro (h | h)
        · exact Or.inl h
        · obtain ⟨id, hid, w⟩ := h
          exact Or.inr ⟨id, Or.inr hid, w⟩
      · rintro (h | ⟨id, hid, r, hr2, hc, hsf⟩)
        · exact Or.inl h
        · rcases hid with rfl | hid
          · rw [hr] at hr2
            exact absurd hr2 (by simp)
          · exact Or.inr ⟨id, hid, r, hr2, hc, hsf⟩
    | some r =>
      simp only []
      by_cases hc : r.isConnected
      · rw [if_pos hc]
        constructor
        · rintro (h | h)
          · rcases (mem_sinsert _ _ _).mp h with h | h
            · exact Or.inr ⟨hd, Or.inl rfl, r, hr, hc, h.symm⟩
            · exact Or.inl h
          · obtain ⟨id, hid, w⟩ := h
            exact Or.inr ⟨id, Or.inr hid, w⟩
        · rintro (h | ⟨id, hid, r2, hr2, hc2, hsf⟩)
          · exact Or.inl ((mem_sinsert _ _ _).mpr (Or.inr h))
          · rcases hid with rfl | hid
            · rw [hr] at hr2
              obtain rfl := Option.some.inj hr2
              exact Or.inl ((mem_sinsert _ _ _).mpr (Or.inl hsf.symm))
            · exact Or.inr ⟨id, hid, r2, hr2, hc2, hsf⟩
      · rw [if_neg hc]
        constructor
        · rintro (h | h)
          · exact Or.inl h
          · obtain ⟨id, hid, w⟩ := h
            exact Or.inr ⟨id, Or.inr hid, w⟩
        · rintro (h | ⟨id, hid, r2, hr2, hc2, hsf⟩)
          · exact Or.inl h
          · rcases hid with rfl | hid
            · rw [hr] at hr2
              obtain rfl := Option.some.inj hr2
              exact absurd hc2 hc
            · exact Or.inr ⟨id, hid, r2, hr2, hc2, hsf⟩

/-- The inner fold only `sinsert`s, hence preserves duplicate-freedom. -/
theorem retrieve_inner_nodup (idSubs : List (String × SubInfo))
    (bucket : List String) (acc : List Int) (h : acc.Nodup) :
    (bucket.foldl
      (fun acc2 id =>
        match alookup idSubs id with
        | some r => if r.isConnected then sinsert acc2 r.sockfd else acc2
        | none => acc2) acc).Nodup := by
  induction bucket generalizing acc with
  | nil => exact h
  | cons hd tl ih =>
    simp only [List.foldl_cons]
    apply ih
    cases hr : alookup idSubs hd with
    | none => exact h
    | some r =>
      simp only []
      by_cases hc : r.isConnected
      · rw [if_pos hc]
        exact nodup_sinsert _ _ h
      · rwa [if_neg hc]

/-- Membership in the outer fold of `retrieve_topic_subscribers`. -/
theorem retrieve_outer_mem (idSubs : List (String × SubInfo))
    (tsubs : List (Pattern × List String)) (t : Pattern)
    (acc : List Int) (fd : Int) :
    fd ∈ tsubs.foldl
      (fun acc pb =>
        if matchesGreedy pb.1 t then
          pb.2.foldl
            (fun acc2 id =>
              match alookup idSubs id with
              | some r => if r.isConnected then sinsert acc2 r.sockfd else acc2
              | none => acc2) acc
        else acc) acc ↔
    fd ∈ acc ∨ ∃ pb ∈ tsubs, matchesGreedy pb.1 t = true ∧
      ∃ id ∈ pb.2, ∃ r, alookup idSubs id = some r ∧
        r.isConnected = true ∧ r.sockfd = fd := by
  induction tsubs generalizing acc with
  | nil => simp
  | cons hd tl ih =>
    simp only [List.foldl_cons, ih, List.mem_cons]
    by_cases hm : matchesGreedy hd.1 t
    · rw [if_pos hm]
      rw [retrieve_inner_mem]
      constructor
      · rintro ((h | h) | h)
        · exact Or.inl h
        · exact Or.inr ⟨hd, Or.inl rfl, hm, h⟩
        · obtain ⟨pb, hpb, w⟩ := h
          exact Or.inr ⟨pb, Or.inr hpb, w⟩
      · rintro (h | ⟨pb, hpb, hm2, w⟩)
        · exact Or.inl (Or.inl h)
        · rcases hpb with rfl | hpb
          · exact Or.inl (Or.inr w)
          · exact Or.inr ⟨pb, hpb, hm2, w⟩
    · rw [if_neg hm]
      constructor
      · rintro (h | h)
        · exact Or.inl h
        · obtain ⟨pb, hpb, w⟩ := h
          exact Or.inr ⟨pb, Or.inr hpb, w⟩
      · rintro (h | ⟨pb, hpb, hm2, w⟩)
        · exact Or.inl h
        · rcases hpb with rfl | hpb
          · exact absurd hm2 hm
          · exact Or.inr ⟨pb, hpb, hm2, w⟩

/-- The outer fold preserves duplicate-freedom. -/
theorem retrieve_outer_nodup (idSubs : List (String × SubInfo))
    (tsubs : List (Pattern × List String)) (t : Pattern)
    (acc : List Int) (h : acc.Nodup) :
    (tsubs.foldl
      (fun acc pb =>
        if matchesGreedy pb.1 t then
          pb.2.foldl
            (fun acc2 id =>
              match alookup idSubs id with
              | some r => if r.isConnected then sinsert acc2 r.sockfd else acc2
              | none => acc2) acc
        else acc) acc).Nodup := by
  induction tsubs generalizing acc with
  | nil => exact h
  | cons hd tl ih =>
    simp only [List.foldl_cons]
    apply ih
    by_cases hm : matchesGreedy hd.1 t
    · rw [if_pos hm]
      exact retrieve_inner_nodup _ _ _ h
    · rwa [if_neg hm]

/-- **C3.** In a coherent registry state, `retrieve_topic_subscribers t`
returns exactly the set of descriptors of connected subscribers that hold at
least one pattern matching `t`, with no duplicates (one entry per descriptor
even when several patterns of the same subscriber match). -/
theorem C3_fanout_completeness (s : Registry) (t : Pattern)
    (hInv : RegInv s) (hconc : hasWildcard t = false) :
    (∀ fd, fd ∈ retrieveTopicSubscribers s t ↔
      ∃ id r, alookup s.idSubs id = some r ∧ r.isConnected = true ∧
        r.sockfd = fd ∧ ∃ p ∈ r.topics, matchesGreedy p t = true) ∧
    (retrieveTopicSubscribers s t).Nodup := by
  constructor
  · intro fd
    unfold retrieveTopicSubscribers
    rw [retrieve_outer_mem]
    simp only [List.not_mem_nil, false_or]
    constructor
    · rintro ⟨pb, hpb, hm, id, hid, r, hr, hc, hsf⟩
      obtain ⟨r0, hr0, hr0p⟩ := hInv.bucketSound pb hpb id hid
      rw [hr] at hr0
      obtain rfl := Option.some.inj hr0
      exact ⟨id, r, hr, hc, hsf, pb.1, hr0p, hm⟩
    · rintro ⟨id, r, hr, hc, hsf, p, hp, hm⟩
      obtain ⟨b, hb, hidb⟩ :=
        hInv.bucketComplete (id, r) (alookup_some_mem _ _ _ hr) p hp
      exact ⟨(p, b), alookup_some_mem _ _ _ hb, hm, id, hidb, r, hr, hc, hsf⟩
  · unfold retrieveTopicSubscribers
    exact retrieve_outer_nodup _ _ _ _ (by simp)

/-- A small coherent registry: one subscriber `"a"` attached on descriptor 5,
subscribed to the single-token pattern `x`. -/
def sampleReg : Registry :=
  ⟨[(5, "a")], [("a", ⟨5, [["x"]]⟩)], [(["x"], ["a"])]⟩

/-- The sample registry satisfies the coherence invariant. -/
theorem regInv_sample : RegInv sampleReg := by
  constructor
  · exact ⟨rfl, trivial⟩
  · exact ⟨rfl, trivial⟩
  · intro pb hpb
    simp only [sampleReg, List.mem_singleton] at hpb
    subst hpb
    decide
  · intro ir hir
    simp only [sampleReg, List.mem_singleton] at hir
    subst hir
    decide
  · intro pb hpb id hid
    simp only [sampleReg, List.mem_singleton] at hpb
    subst hpb
    simp only [List.mem_singleton] at hid
    subst hid
    exact ⟨⟨5, [["x"]]⟩, rfl, by decide⟩
  · intro ir hir pat hpat
    simp only [sampleReg, List.mem_singleton] at hir
    subst hir
    simp only [List.mem_singleton] at hpat
    subst hpat
    exact ⟨["a"], rfl, by decide⟩

/-- Witness for `C3_fanout_completeness` on `sampleReg` and the concrete
topic `x`. -/
theorem C3_fanout_completeness_witness :
    RegInv sampleReg ∧ hasWildcard ["x"] = false ∧
      ((∀ fd, fd ∈ retrieveTopicSubscribers sampleReg ["x"] ↔
        ∃ id r, alookup sampleReg.idSubs id = some r ∧ r.isConnected = true ∧
          r.sockfd = fd ∧ ∃ p ∈ r.topics, matchesGreedy p ["x"] = true) ∧
      (retrieveTopicSubscribers sampleReg ["x"]).Nodup) :=
  ⟨regInv_sample, by decide,
    C3_fanout_completeness sampleReg ["x"] regInv_sample (by decide)⟩

/-! ## Binary trie (`src/dataplane-router/binary_trie.hpp`)

`trie::BinaryTrie<Key, Value>` with 32-bit keys.  A null `unique_ptr` child
is `nil`; every allocated node carries `value_ : optional<Value>` and
`is_end_of_key_`.  The root always exists.  A key walk takes the top bits
most-significant first: bit `i` of the walk is bit `31 - i` of the key, and
the true branch is `children_[1]`. -/
inductive BTrie (V : Type) where
  | nil : BTrie V
  | node (val : Option V) (isEnd : Bool) (l r : BTrie V) : BTrie V
deriving DecidableEq

namespace BTrie

/-- `cur->children_[index]`: child on bit `b` (`true` = `children_[1]`),
`nil` when the pointer is null or the node itself is absent. -/
def childOf {V : Type} : BTrie V → Bool → BTrie V
  | .nil, _ => .nil
  | .node _ _ l r, b => if b then r else l

/-- Whether the node pointer is null. -/
def isNil {V : Type} : BTrie V → Bool
  | .nil => true
  | .node _ _ _ _ => false

/-- The node's `is_end_of_key_` flag (`false` for an absent node). -/
def endFlag {V : Type} : BTrie V → Bool
  | .nil => false
  | .node _ e _ _ => e

/-- The node's `value_` (`none` for an absent node). -/
def valOf {V : Type} : BTrie V → Option V
  | .nil => none
  | .node v _ _ _ => v

/-- The bits of a 32-bit key in walk order: `path & mask` with
`mask = 1 << (BITS - 1)` shifted right each step, i.e. bit `31 - i`. -/
def bitsOf (k : Nat) : List Bool :=
  (List.range 32).map (fun i => k.testBit (31 - i))

/-- `BinaryTrie::insert` (lines 30-44): create missing children along the
given bits, then overwrite the terminal node's value and set its
end-of-key flag, keeping its subtrees. -/
def insert {V : Type} : BTrie V → List Bool → V → BTrie V
  | .nil, [], v => .node (some v) true .nil .nil
  | .node _ _ l r, [], v => .node (some v) true l r
  | .nil, b :: bs, v =>
    if b then .node none false .nil (insert .nil bs v)
    else .node none false (insert .nil bs v) .nil
  | .node val e l r, b :: bs, v =>
    if b then .node val e l (insert r bs v)
    else .node val e (insert l bs v) r

/-- `BinaryTrie::longest_prefix_match` (lines 56-77): walk the 32 bits,
stop at a missing child, remember the value of the last node whose
end-of-key flag is set (the root's own flag is never consulted). -/
def lpmGo {V : Type} : BTrie V → List Bool → Option V → Option V
  | _, [], acc => acc
  | t, b :: bs, acc =>
    match childOf t b with
    | .nil => acc
    | .node val e l r => lpmGo (.node val e l r) bs (if e then val else acc)

/-- `longest_prefix_match` on a key. -/
def longestPrefixMatch {V : Type} (t : BTrie V) (k : Nat) : Option V :=
  lpmGo t (bitsOf k) none

/-- The existence walk of `BinaryTrie::erase` (lines 96-109): every child on
the path must exist and the terminal node must end a key. -/
def eraseWalkOk {V : Type} : BTrie V → List Bool → Bool
  | t, [] => endFlag t
  | t, b :: bs =>
    match childOf t b with
    | .nil => false
    | c => eraseWalkOk c bs

/-- Lines 111-112 of `erase`: clear the terminal node's end-of-key flag and
reset its value, keeping its children. -/
def clearAt {V : Type} : BTrie V → List Bool → BTrie V
  | .nil, _ => .nil
  | .node _ _ l r, [] => .node none false l r
  | .node val e l r, b :: bs =>
    if b then .node val e l (clearAt r bs) else .node val e (clearAt l bs) r

/-- The cleanup loop of `erase` (lines 114-126).  The loop runs `i` upward
from 0 with `parent = path_buffer_[i]` — i.e. from the **root** down, despite
the `Iterate in reverse` comment — and breaks at the first child that ends a
key or has any child.  After a successful walk every path node below depth
`i + 1 < prefix_len` still has its on-path child, so for `prefix_len ≥ 2`
the loop breaks at `i = 0` without unlinking anything, and for
`prefix_len = 1` it may unlink the cleared terminal; either way only the
`i = 0` iteration is ever observable, which is what this function models. -/
def unwindTop {V : Type} : BTrie V → List Bool → BTrie V
  | t, [] => t
  | .nil, _ :: _ => .nil
  | .node val e l r, b :: _ =>
    match h : (if b then r else l) with
    | .nil => .node val e l r
    | .node cval ce cl cr =>
      if ce || !(isNil cl) || !(isNil cr) then .node val e l r
      else if b then .node val e l .nil else .node val e .nil r

/-- `BinaryTrie::erase` (lines 90-129): returns whether an entry was erased,
paired with the resulting trie. -/
def erase {V : Type} (t : BTrie V) (bits : List Bool) : Bool × BTrie V :=
  if eraseWalkOk t bits then (true, unwindTop (clearAt t bits) bits)
  else (false, t)

/-- Does the node at this exact bit path exist and end a key? -/
def endAt {V : Type} : BTrie V → List Bool → Bool
  | t, [] => endFlag t
  | t, b :: bs => endAt (childOf t b) bs

/-- The value stored at this exact bit path, when the node ends a key. -/
def memEnd {V : Type} : BTrie V → List Bool → Option V
  | t, [] => if endFlag t then valOf t else none
  | t, b :: bs => memEnd (childOf t b) bs

/-- Well-formedness: an end-of-key node holds a value.  Maintained by
`insert` (which writes both together) and restored by `erase` (which clears
both together). -/
def WF {V : Type} : BTrie V → Prop
  | .nil => True
  | .node val e l r => (e = true → val.isSome) ∧ WF l ∧ WF r

/-- The empty trie: the root node allocated by the constructor. -/
def emptyTrie (V : Type) : BTrie V :=
  .node none false .nil .nil

theorem endAt_nil {V : Type} (bs : List Bool) : endAt (.nil : BTrie V) bs = false := by
  induction bs with
  | nil => rfl
  | cons b tl ih => simpa [endAt, childOf] using ih

theorem memEnd_nil {V : Type} (bs : List Bool) : memEnd (.nil : BTrie V) bs = none := by
  induction bs with
  | nil => rfl
  | cons b tl ih => simpa [memEnd, childOf] using ih

theorem memEnd_some_endAt {V : Type} (t : BTrie V) (bs : List Bool) (v : V)
    (h : memEnd t bs = some v) : endAt t bs = true := by
  induction bs generalizing t with
  | nil =>
    unfold memEnd at h
    unfold endAt
    by_cases he : endFlag t
    · exact he
    · rw [if_neg he] at h
      exact absurd h (by simp)
  | cons b tl ih =>
    unfold memEnd at h
    unfold endAt
    exact ih (childOf t b) h

theorem endAt_insert_self {V : Type} (t : BTrie V) (bs : List Bool) (v : V) :
    endAt (insert t bs v) bs = true := by
  induction bs generalizing t with
  | nil => cases t <;> rfl
  | cons b tl ih =>
    cases t with
    | nil => cases b <;> simpa [insert, endAt, childOf] using ih .nil
    | node val e l r => cases b <;> simp [insert, endAt, childOf, ih]

theorem memEnd_insert_self {V : Type} (t : BTrie V) (bs : List Bool) (v : V) :
    memEnd (insert t bs v) bs = some v := by
  induction bs generalizing t with
  | nil => cases t <;> rfl
  | cons b tl ih =>
    cases t with
    | nil => cases b <;> simpa [insert, memEnd, childOf] using ih .nil
    | node val e l r => cases b <;> simp [insert, memEnd, childOf, ih]

theorem endAt_insert_ne {V : Type} (t : BTrie V) (bs bs' : List Bool) (v : V)
    (h : bs' ≠ bs) : endAt (insert t bs v) bs' = endAt t bs' := by
  induction bs' generalizing bs t with
  | nil =>
    cases bs with
    | nil => exact absurd rfl h
    | cons b tl => cases t <;> cases b <;> simp [insert, endAt, endFlag]
  | cons c tl' ih =>
    cases bs with
    | nil =>
      cases t with
      | nil => cases c <;> simp [insert, endAt, childOf, endAt_nil]
      | node val e l r => cases c <;> simp [insert, endAt, childOf]
    | cons b tl =>
      by_cases hcb : c = b
      · subst hcb
        have htl : tl' ≠ tl := by
          intro hc
          exact h (by rw [hc])
        cases t with
        | nil =>
          cases c <;>
            simp [insert, endAt, childOf, ih .nil tl htl, endAt_nil]
        | node val e l r =>
          cases c <;> simp [insert, endAt, childOf, ih _ tl htl]
      · cases t with
        | nil =>
          cases c <;> cases b <;> simp_all [insert, endAt, childOf, endAt_nil]
        | node val e l r =>
          cases c <;> cases b <;> simp_all [insert, endAt, childOf]

theorem memEnd_insert_ne {V : Type} (t : BTrie V) (bs bs' : List Bool) (v : V)
    (h : bs' ≠ bs) : memEnd (insert t bs v) bs' = memEnd t bs' := by
  induction bs' generalizing bs t with
  | nil =>
    cases bs with
    | nil => exact absurd rfl h
    | cons b tl => cases t <;> cases b <;> simp [insert, memEnd, endFlag, valOf]
  | cons c tl' ih =>
    cases bs with
    | nil =>
      cases t with
      | nil => cases c <;> simp [insert, memEnd, childOf, memEnd_nil]
      | node val e l r => cases c <;> simp [insert, memEnd, childOf]
    | cons b tl =>
      by_cases hcb : c = b
      · subst hcb
        have htl : tl' ≠ tl := by
          intro hc
          exact h (by rw [hc])
        cases t with
        | nil =>
          cases c <;>
            simp [insert, memEnd, childOf, ih .nil tl htl, memEnd_nil]
        | node val e l r =>
          cases c <;> simp [insert, memEnd, childOf, ih _ tl htl]
      · cases t with
        | nil =>
          cases c <;> cases b <;> simp_all [insert, memEnd, childOf, memEnd_nil]
        | node val e l r =>
          cases c <;> cases b <;> simp_all [insert, memEnd, childOf]

theorem WF_childOf {V : Type} (t : BTrie V) (b : Bool) (h : WF t) :
    WF (childOf t b) := by
  cases t with
  | nil => trivial
  | node val e l r =>
    obtain ⟨h1, h2, h3⟩ := h
    cases b <;> simpa [childOf]

theorem WF_insert {V : Type} (t : BTrie V) (bs : List Bool) (v : V)
    (h : WF t) : WF (insert t bs v) := by
  induction bs generalizing t with
  | nil =>
    cases t with
    | nil => exact ⟨by simp, trivial, trivial⟩
    | node val e l r =>
      obtain ⟨h1, h2, h3⟩ := h
      exact ⟨by simp, h2, h3⟩
  | cons b tl ih =>
    cases t with
    | nil =>
      cases b
      · exact ⟨by simp, ih .nil trivial, trivial⟩
      · exact ⟨by simp, trivial, ih .nil trivial⟩
    | node val e l r =>
      obtain ⟨h1, h2, h3⟩ := h
      cases b
      · exact ⟨h1, ih l h2, h3⟩
      · exact ⟨h1, h2, ih r h3⟩

/-- Specification-side view of the lookup walk: the value of the deepest
end-of-key node met while following `key` from this node's children. -/
def bestVal {V : Type} : BTrie V → List Bool → Option V
  | _, [] => none
  | t, b :: bs =>
    match childOf t b with
    | .nil => none
    | .node cval ce cl cr =>
      match bestVal (.node cval ce cl cr) bs with
      | some v => some v
      | none => if ce then cval else none

theorem bestVal_cons_nil {V : Type} (t : BTrie V) (b : Bool) (bs : List Bool)
    (h : childOf t b = .nil) : bestVal t (b :: bs) = none := by
  cases t with
  | nil => rfl
  | node val e l r =>
    cases b <;> simp only [childOf, if_true, if_false, Bool.false_eq_true] at h <;>
      simp [bestVal, childOf, h]

theorem bestVal_cons_node {V : Type} (t : BTrie V) (b : Bool) (bs : List Bool)
    (cval : Option V) (ce : Bool) (cl cr : BTrie V)
    (h : childOf t b = .node cval ce cl cr) :
    bestVal t (b :: bs) =
      match bestVal (.node cval ce cl cr) bs with
      | some v => some v
      | none => if ce then cval else none := by
  cases t with
  | nil => simp [childOf] at h
  | node val e l r =>
    cases b <;> simp only [childOf, if_true, if_false, Bool.false_eq_true] at h <;>
      simp [bestVal, childOf, h]

theorem lpmGo_cons_nil {V : Type} (t : BTrie V) (b : Bool) (bs : List Bool)
    (acc : Option V) (h : childOf t b = .nil) : lpmGo t (b :: bs) acc = acc := by
  cases t with
  | nil => rfl
  | node val e l r =>
    cases b <;> simp only [childOf, if_true, if_false, Bool.false_eq_true] at h <;>
      simp [lpmGo, childOf, h]

theorem lpmGo_cons_node {V : Type} (t : BTrie V) (b : Bool) (bs : List Bool)
    (acc cval : Option V) (ce : Bool) (cl cr : BTrie V)
    (h : childOf t b = .node cval ce cl cr) :
    lpmGo t (b :: bs) acc =
      lpmGo (.node cval ce cl cr) bs (if ce then cval else acc) := by
  cases t with
  | nil => simp [childOf] at h
  | node val e l r =>
    cases b <;> simp only [childOf, if_true, if_false, Bool.false_eq_true] at h <;>
      simp [lpmGo, childOf, h]

theorem endAt_cons {V : Type} (t : BTrie V) (b : Bool) (bs : List Bool) :
    endAt t (b :: bs) = endAt (childOf t b) bs := rfl

theorem memEnd_cons {V : Type} (t : BTrie V) (b : Bool) (bs : List Bool) :
    memEnd t (b :: bs) = memEnd (childOf t b) bs := rfl

/-- On a well-formed trie, the accumulator-passing walk of
`longest_prefix_match` computes `bestVal`, falling back to the accumulator
when no end-of-key node is met. -/
theorem lpmGo_eq_bestVal {V : Type} (key : List Bool) (t : BTrie V)
    (acc : Option V) (hWF : WF t) :
    lpmGo t key acc =
      match bestVal t key with
      | some v => some v
      | none => acc := by
  induction key generalizing t acc with
  | nil => rfl
  | cons b bs ih =>
    cases hc : childOf t b with
    | nil => rw [lpmGo_cons_nil t b bs acc hc, bestVal_cons_nil t b bs hc]
    | node cval ce cl cr =>
      have hWFc : WF (.node cval ce cl cr) := hc ▸ WF_childOf t b hWF
      rw [lpmGo_cons_node t b bs acc cval ce cl cr hc,
        bestVal_cons_node t b bs cval ce cl cr hc, ih _ _ hWFc]
      cases hbv : bestVal (.node cval ce cl cr) bs with
      | some v => rfl
      | none =>
        simp only []
        by_cases hce : ce
        · obtain ⟨h1, _, _⟩ := hWFc
          obtain ⟨w, hw⟩ := Option.isSome_iff_exists.mp (h1 hce)
          simp [hce, hw]
        · simp [hce]

/-- `bestVal` is `none` exactly when no strictly-descending prefix of the
key reaches an end-of-key node (well-formedness rules out end nodes without
a value). -/
theorem bestVal_none_iff {V : Type} (key : List Bool) (t : BTrie V)
    (hWF : WF t) :
    bestVal t key = none ↔
      ∀ n, 1 ≤ n → n ≤ key.length → endAt t (key.take n) = false := by
  induction key generalizing t with
  | nil =>
    simp only [bestVal, List.length_nil]
    constructor
    · intro _ n h1 h2
      omega
    · intro _
      trivial
  | cons b bs ih =>
    have hshift : ∀ m : Nat, endAt t ((b :: bs).take (m + 1)) =
        endAt (childOf t b) (bs.take m) := by
      intro m
      rw [List.take_succ_cons, endAt_cons]
    cases hc : childOf t b with
    | nil =>
      rw [bestVal_cons_nil t b bs hc]
      constructor
      · intro _ n h1 h2
        obtain ⟨m, rfl⟩ : ∃ m, n = m + 1 := ⟨n - 1, by omega⟩
        rw [hshift m, hc]
        exact endAt_nil _
      · intro _
        trivial
    | node cval ce cl cr =>
      have hWFc : WF (.node cval ce cl cr) := hc ▸ WF_childOf t b hWF
      have hshift2 : ∀ m : Nat, endAt t ((b :: bs).take (m + 1)) =
          endAt (.node cval ce cl cr) (bs.take m) := by
        intro m
        rw [hshift m, hc]
      rw [bestVal_cons_node t b bs cval ce cl cr hc]
      cases hbv : bestVal (.node cval ce cl cr) bs with
      | some v =>
        simp only []
        constructor
        · intro h
          exact absurd h (by simp)
        · intro h
          exfalso
          have hnone : bestVal (.node cval ce cl cr) bs = none := by
            rw [ih _ hWFc]
            intro n h1 h2
            have := h (n + 1) (by omega)
              (by simp only [List.length_cons]; omega)
            rwa [hshift2 n] at this
          rw [hbv] at hnone
          exact absurd hnone (by simp)
      | none =>
        simp only []
        have hall : ∀ n, 1 ≤ n → n ≤ bs.length →
            endAt (.node cval ce cl cr) (bs.take n) = false :=
          (ih _ hWFc).mp hbv
        by_cases hce : ce
        · obtain ⟨h1, _, _⟩ := hWFc
          obtain ⟨w, hw⟩ := Option.isSome_iff_exists.mp (h1 hce)
          simp only [hce, if_true, hw]
          constructor
          · intro h
            exact absurd h (by simp)
          · intro h
            have h2 := h 1 (by omega) (by simp only [List.length_cons]; omega)
            rw [hshift2 0] at h2
            simp only [List.take_zero] at h2
            unfold endAt endFlag at h2
            rw [hce] at h2
            exact absurd h2 (by simp)
        · simp only [hce, if_false, Bool.false_eq_true]
          constructor
          · intro _ n h1 h2
            obtain ⟨m, rfl⟩ : ∃ m, n = m + 1 := ⟨n - 1, by omega⟩
            rw [hshift2 m]
            cases m with
            | zero =>
              simp only [List.take_zero]
              unfold endAt endFlag
              simpa using hce
            | succ m2 =>
              refine hall (m2 + 1) (by omega) ?_
              simp only [List.length_cons] at h2
              omega
          · intro _
            trivial

/-- `bestVal` yields `v` exactly when some strictly-descending prefix of the
key reaches an end-of-key node carrying `v` and no longer prefix reaches
one. -/
theorem bestVal_some_iff {V : Type} (key : List Bool) (t : BTrie V)
    (v : V) (hWF : WF t) :
    bestVal t key = some v ↔
      ∃ n, 1 ≤ n ∧ n ≤ key.length ∧ memEnd t (key.take n) = some v ∧
        ∀ m, n < m → m ≤ key.length → endAt t (key.take m) = false := by
  induction key generalizing t v with
  | nil =>
    simp only [bestVal, List.length_nil]
    constructor
    · intro h
      exact absurd h (by simp)
    · rintro ⟨n, h1, h2, _⟩
      omega
  | cons b bs ih =>
    have hshiftE : ∀ m : Nat, endAt t ((b :: bs).take (m + 1)) =
        endAt (childOf t b) (bs.take m) := by
      intro m
      rw [List.take_succ_cons, endAt_cons]
    have hshiftM : ∀ m : Nat, memEnd t ((b :: bs).take (m + 1)) =
        memEnd (childOf t b) (bs.take m) := by
      intro m
      rw [List.take_succ_cons, memEnd_cons]
    cases hc : childOf t b with
    | nil =>
      rw [bestVal_cons_nil t b bs hc]
      constructor
      · intro h
        exact absurd h (by simp)
      · rintro ⟨n, h1, h2, hmem, _⟩
        obtain ⟨m, rfl⟩ : ∃ m, n = m + 1 := ⟨n - 1, by omega⟩
        rw [hshiftM m, hc, memEnd_nil] at hmem
        exact absurd hmem (by simp)
    | node cval ce cl cr =>
      have hWFc : WF (.node cval ce cl cr) := hc ▸ WF_childOf t b hWF
      have hshiftE2 : ∀ m : Nat, endAt t ((b :: bs).take (m + 1)) =
          endAt (.node cval ce cl cr) (bs.take m) := by
        intro m
        rw [hshiftE m, hc]
      have hshiftM2 : ∀ m : Nat, memEnd t ((b :: bs).take (m + 1)) =
          memEnd (.node cval ce cl cr) (bs.take m) := by
        intro m
        rw [hshiftM m, hc]
      have hdepth1M : memEnd t ((b :: bs).take 1) =
          (if ce then cval else none) := by
        rw [hshiftM2 0]
        simp only [List.take_zero]
        unfold memEnd endFlag valOf
        rfl
      have hdepth1E : endAt t ((b :: bs).take 1) = ce := by
        rw [hshiftE2 0]
        simp only [List.take_zero]
        rfl
      rw [bestVal_cons_node t b bs cval ce cl cr hc]
      cases hbv : bestVal (.node cval ce cl cr) bs with
      | some w =>
        simp only [Option.some.injEq]
        obtain ⟨n0, hn1, hn2, hnm, hnmax⟩ := (ih _ w hWFc).mp hbv
        constructor
        · intro hwv
          subst hwv
          refine ⟨n0 + 1, by omega, by simp only [List.length_cons]; omega,
            by rw [hshiftM2 n0]; exact hnm, ?_⟩
          intro m hm1 hm2
          obtain ⟨m2, rfl⟩ : ∃ m2, m = m2 + 1 := ⟨m - 1, by omega⟩
          rw [hshiftE2 m2]
          refine hnmax m2 (by omega) ?_
          simp only [List.length_cons] at hm2
          omega
        · rintro ⟨n, h1, h2, hmem, hmax⟩
          cases n with
          | zero => omega
          | succ n2 =>
            cases n2 with
            | zero =>
              -- a match at depth 1 contradicts the deeper match at n0 + 1
              exfalso
              have := hmax (n0 + 1) (by omega)
                (by simp only [List.length_cons]; omega)
              rw [hshiftE2 n0] at this
              rw [memEnd_some_endAt _ _ w hnm] at this
              exact absurd this (by simp)
            | succ n3 =>
              rw [hshiftM2 (n3 + 1)] at hmem
              have hmax2 : ∀ m, n3 + 1 < m → m ≤ bs.length →
                  endAt (.node cval ce cl cr) (bs.take m) = false := by
                intro m hm1 hm2
                have := hmax (m + 1) (by omega)
                  (by simp only [List.length_cons]; omega)
                rwa [hshiftE2 m] at this
              have : bestVal (.node cval ce cl cr) bs = some v :=
                (ih _ v hWFc).mpr ⟨n3 + 1, by omega,
                  by simp only [List.length_cons] at h2; omega, hmem, hmax2⟩
              rw [hbv] at this
              exact Option.some.inj this
      | none =>
        simp only []
        have hall : ∀ n, 1 ≤ n → n ≤ bs.length →
            endAt (.node cval ce cl cr) (bs.take n) = false :=
          (bestVal_none_iff bs _ hWFc).mp hbv
        constructor
        · intro hv
          refine ⟨1, by omega, by simp only [List.length_cons]; omega, ?_, ?_⟩
          · rw [hdepth1M]
            exact hv
          · intro m hm1 hm2
            obtain ⟨m2, rfl⟩ : ∃ m2, m = m2 + 1 := ⟨m - 1, by omega⟩
            rw [hshiftE2 m2]
            refine hall m2 (by omega) ?_
            simp only [List.length_cons] at hm2
            omega
        · rintro ⟨n, h1, h2, hmem, hmax⟩
          cases n with
          | zero => omega
          | succ n2 =>
            cases n2 with
            | zero =>
              rw [hdepth1M] at hmem
              exact hmem
            | succ n3 =>
              exfalso
              rw [hshiftM2 (n3 + 1)] at hmem
              have := hall (n3 + 1) (by omega)
                (by simp only [List.length_cons] at h2; omega)
              rw [memEnd_some_endAt _ _ v hmem] at this
              exact absurd this (by simp)

theorem endAt_empty {V : Type} (bs : List Bool) :
    endAt (emptyTrie V) bs = false := by
  cases bs with
  | nil => rfl
  | cons b tl =>
    rw [endAt_cons]
    cases b <;> simpa [emptyTrie, childOf] using endAt_nil tl

theorem memEnd_empty {V : Type} (bs : List Bool) :
    memEnd (emptyTrie V) bs = none := by
  cases bs with
  | nil => rfl
  | cons b tl =>
    rw [memEnd_cons]
    cases b <;> simpa [emptyTrie, childOf] using memEnd_nil tl

theorem WF_empty (V : Type) : WF (emptyTrie V) :=
  ⟨by simp, trivial, trivial⟩

/-- The key bits a routing entry occupies: the top `prefix_len` bits of its
prefix (`(prefix, prefix_len, value)` is modelled as a nested pair). -/
def pbits {V : Type} (e : Nat × Nat × V) : List Bool :=
  (bitsOf e.1).take e.2.1

/-- The entry's top `prefix_len` bits agree with the key's. -/
def agreesWith {V : Type} (e : Nat × Nat × V) (k : Nat) : Prop :=
  pbits e = (bitsOf k).take e.2.1

instance {V : Type} (e : Nat × Nat × V) (k : Nat) :
    Decidable (agreesWith e k) := by
  unfold agreesWith
  infer_instance

/-- The routing table built by inserting every entry, as
`RoutingTable` does with the trie. -/
def buildTrie {V : Type} (es : List (Nat × Nat × V)) : BTrie V :=
  es.foldl (fun t e => insert t (pbits e) e.2.2) (emptyTrie V)

theorem WF_foldIns {V : Type} (es : List (Nat × Nat × V)) :
    ∀ t : BTrie V, WF t →
      WF (es.foldl (fun t e => insert t (pbits e) e.2.2) t) := by
  induction es with
  | nil => intro t h; exact h
  | cons e0 rest ih =>
    intro t h
    exact ih _ (WF_insert _ _ _ h)

theorem endAt_foldIns {V : Type} (es : List (Nat × Nat × V)) (bs : List Bool) :
    ∀ t : BTrie V,
      (endAt (es.foldl (fun t e => insert t (pbits e) e.2.2) t) bs = true ↔
        (∃ e ∈ es, pbits e = bs) ∨ endAt t bs = true) := by
  induction es with
  | nil => intro t; simp
  | cons e0 rest ih =>
    intro t
    simp only [List.foldl_cons, ih, List.mem_cons]
    by_cases h0 : pbits e0 = bs
    · rw [← h0, endAt_insert_self]
      constructor
      · intro _
        exact Or.inl ⟨e0, Or.inl rfl, rfl⟩
      · intro _
        exact Or.inr rfl
    · rw [endAt_insert_ne _ _ _ _ (fun hc => h0 hc.symm)]
      constructor
      · rintro (⟨e, he, hpe⟩ | h)
        · exact Or.inl ⟨e, Or.inr he, hpe⟩
        · exact Or.inr h
      · rintro (⟨e, he, hpe⟩ | h)
        · rcases he with rfl | he
          · exact absurd hpe h0
          · exact Or.inl ⟨e, he, hpe⟩
        · exact Or.inr h

theorem memEnd_foldIns_nomatch {V : Type} (es : List (Nat × Nat × V))
    (bs : List Bool) :
    ∀ t : BTrie V, (∀ e ∈ es, pbits e ≠ bs) →
      memEnd (es.foldl (fun t e => insert t (pbits e) e.2.2) t) bs =
        memEnd t bs := by
  induction es with
  | nil => intro t _; rfl
  | cons e0 rest ih =>
    intro t h
    simp only [List.foldl_cons]
    rw [ih _ (fun e he => h e (List.mem_cons.mpr (Or.inr he)))]
    exact memEnd_insert_ne _ _ _ _
      (fun hc => h e0 (List.mem_cons.mpr (Or.inl rfl)) hc.symm)

theorem memEnd_foldIns_match {V : Type} (es : List (Nat × Nat × V))
    (bs : List Bool) :
    ∀ t : BTrie V, (∃ e ∈ es, pbits e = bs) →
      ∃ e ∈ es, pbits e = bs ∧
        memEnd (es.foldl (fun t e => insert t (pbits e) e.2.2) t) bs =
          some e.2.2 := by
  induction es with
  | nil => rintro t ⟨e, he, _⟩; simp at he
  | cons e0 rest ih =>
    intro t hex
    simp only [List.foldl_cons]
    by_cases hrest : ∃ e ∈ rest, pbits e = bs
    · obtain ⟨e, he, hpe, hm⟩ := ih _ hrest
      exact ⟨e, List.mem_cons.mpr (Or.inr he), hpe, hm⟩
    · have h0 : pbits e0 = bs := by
        obtain ⟨e, he, hpe⟩ := hex
        rcases List.mem_cons.mp he with rfl | he
        · exact hpe
        · exact absurd ⟨e, he, hpe⟩ hrest
      push_neg at hrest
      refine ⟨e0, List.mem_cons.mpr (Or.inl rfl), h0, ?_⟩
      rw [memEnd_foldIns_nomatch rest bs _ hrest, ← h0, memEnd_insert_self]

theorem bitsOf_length (k : Nat) : (bitsOf k).length = 32 := by
  simp [bitsOf]

theorem pbits_length {V : Type} (e : Nat × Nat × V) (h : e.2.1 ≤ 32) :
    (pbits e).length = e.2.1 := by
  simp only [pbits, List.length_take, bitsOf_length]
  omega

/-- `longest_prefix_match` equals the deepest-end-node view on a
well-formed trie. -/
theorem longestPrefixMatch_eq_bestVal {V : Type} (t : BTrie V) (k : Nat)
    (hWF : WF t) : longestPrefixMatch t k = bestVal t (bitsOf k) := by
  unfold longestPrefixMatch
  rw [lpmGo_eq_bestVal _ _ _ hWF]
  cases bestVal t (bitsOf k) <;> rfl

end BTrie

open BTrie in
/-- **C4, amended.** For every finite set of trie insertions of
`(prefix, prefix_len, value)` with `1 ≤ prefix_len ≤ 32` and pairwise
distinct occupied bit strings (distinct `(top prefix_len bits, prefix_len)`
pairs — the spec's "ties are impossible"), `longest_prefix_match k` is
`none` exactly when no entry's top `prefix_len` bits agree with `k`, and is
`some v` exactly when `v` is the value of the agreeing entry of maximal
`prefix_len`.  Zero-length prefixes must be excluded: the walk never
consults the root's end-of-key flag (see `C4_counterexample`). -/
theorem C4_longest_prefix_match {V : Type} (es : List (Nat × Nat × V))
    (k : Nat)
    (hlen : ∀ e ∈ es, 1 ≤ e.2.1 ∧ e.2.1 ≤ 32)
    (hdist : ∀ e ∈ es, ∀ e' ∈ es, pbits e = pbits e' → e = e') :
    (longestPrefixMatch (buildTrie es) k = none ↔
      ∀ e ∈ es, ¬agreesWith e k) ∧
    (∀ v, longestPrefixMatch (buildTrie es) k = some v ↔
      ∃ e ∈ es, agreesWith e k ∧ e.2.2 = v ∧
        ∀ e' ∈ es, agreesWith e' k → e'.2.1 ≤ e.2.1) := by
  have hWF : WF (buildTrie es) := WF_foldIns es _ (WF_empty V)
  have hEnd : ∀ bs, endAt (buildTrie es) bs = true ↔ ∃ e ∈ es, pbits e = bs := by
    intro bs
    unfold buildTrie
    rw [endAt_foldIns, endAt_empty]
    simp
  -- pbits e = (bitsOf k).take n forces n = prefix_len and agreement
  have hkey : ∀ e ∈ es, ∀ n ≤ 32, (pbits e = (bitsOf k).take n ↔
      (agreesWith e k ∧ e.2.1 = n)) := by
    intro e he n hn
    constructor
    · intro h
      have hlene : (pbits e).length = e.2.1 := pbits_length e (hlen e he).2
      have : e.2.1 = n := by
        rw [h] at hlene
        simp only [List.length_take, bitsOf_length] at hlene
        omega
      exact ⟨by rw [agreesWith, this, h], this⟩
    · rintro ⟨ha, rfl⟩
      exact ha
  rw [longestPrefixMatch_eq_bestVal _ _ hWF]
  constructor
  · rw [bestVal_none_iff _ _ hWF]
    constructor
    · intro h e he hag
      have h2 := h e.2.1 (hlen e he).1 (by rw [bitsOf_length]; exact (hlen e he).2)
      rw [Bool.eq_false_iff] at h2
      exact h2 ((hEnd _).mpr ⟨e, he, hag⟩)
    · intro h n h1 h2
      rw [bitsOf_length] at h2
      rw [Bool.eq_false_iff]
      intro hc
      obtain ⟨e, he, hpe⟩ := (hEnd _).mp hc
      exact h e he ((hkey e he n h2).mp hpe).1
  · intro v
    rw [bestVal_some_iff _ _ v hWF]
    constructor
    · rintro ⟨n, h1, h2, hmem, hmax⟩
      rw [bitsOf_length] at h2
      have hex : ∃ e ∈ es, pbits e = (bitsOf k).take n := by
        by_contra hno
        push_neg at hno
        rw [show (buildTrie es) =
          es.foldl (fun t e => insert t (pbits e) e.2.2) (emptyTrie V) from rfl,
          memEnd_foldIns_nomatch es _ _ hno, memEnd_empty] at hmem
        exact absurd hmem (by simp)
      obtain ⟨e, he, hpe, hval⟩ := memEnd_foldIns_match es _ _ hex
      rw [show (buildTrie es) =
        es.foldl (fun t e => insert t (pbits e) e.2.2) (emptyTrie V) from rfl,
        hval] at hmem
      obtain rfl := Option.some.inj hmem
      obtain ⟨hag, hlene⟩ := (hkey e he n h2).mp hpe
      refine ⟨e, he, hag, rfl, ?_⟩
      intro e' he' hag'
      by_contra hgt
      push_neg at hgt
      rw [hlene] at hgt
      have hfalse := hmax e'.2.1 hgt (by rw [bitsOf_length]; exact (hlen e' he').2)
      rw [Bool.eq_false_iff] at hfalse
      exact hfalse ((hEnd _).mpr ⟨e', he', hag'⟩)
    · rintro ⟨e, he, hag, rfl, hmaxlen⟩
      refine ⟨e.2.1, (hlen e he).1,
        by rw [bitsOf_length]; exact (hlen e he).2, ?_, ?_⟩
      · have hex : ∃ e2 ∈ es, pbits e2 = (bitsOf k).take e.2.1 :=
          ⟨e, he, hag⟩
        obtain ⟨e2, he2, hpe2, hval2⟩ := memEnd_foldIns_match es _ _ hex
        have : e2 = e := hdist e2 he2 e he (by rw [hpe2]; exact hag.symm)
        subst this
        exact hval2
      · intro m hm1 hm2
        rw [bitsOf_length] at hm2
        rw [Bool.eq_false_iff]
        intro hc
        obtain ⟨e', he', hpe'⟩ := (hEnd _).mp hc
        obtain ⟨hag', hlene'⟩ := (hkey e' he' m hm2).mp hpe'
        have := hmaxlen e' he' hag'
        omega

open BTrie in
/-- **C4, counterexample.** The claim admits `prefix_len = 0`.  A single
entry `(0, 0, 42)` agrees with key `0` on its (empty) top bits, so the
claimed lookup result is `some 42`; the code returns `none` because
`longest_prefix_match` only inspects children of the root and never the
root's own end-of-key flag, where a zero-length insertion lands. -/
theorem C4_counterexample :
    agreesWith ((0, 0, 42) : Nat × Nat × Nat) 0 ∧
      longestPrefixMatch (buildTrie [((0, 0, 42) : Nat × Nat × Nat)]) 0
        = none := by
  constructor
  · decide
  · decide

open BTrie in
/-- Witness for `C4_longest_prefix_match`: routes `10.0.0.0/8 → 0` and
`10.1.0.0/16 → 1`, key `10.1.0.7`. -/
theorem C4_longest_prefix_match_witness :
    (∀ e ∈ [((0x0A000000, 8, 0) : Nat × Nat × Nat), (0x0A010000, 16, 1)],
      1 ≤ e.2.1 ∧ e.2.1 ≤ 32) ∧
    (∀ e ∈ [((0x0A000000, 8, 0) : Nat × Nat × Nat), (0x0A010000, 16, 1)],
      ∀ e' ∈ [((0x0A000000, 8, 0) : Nat × Nat × Nat), (0x0A010000, 16, 1)],
        pbits e = pbits e' → e = e') ∧
    ((longestPrefixMatch
        (buildTrie [((0x0A000000, 8, 0) : Nat × Nat × Nat), (0x0A010000, 16, 1)])
        0x0A010007 = none ↔
      ∀ e ∈ [((0x0A000000, 8, 0) : Nat × Nat × Nat), (0x0A010000, 16, 1)],
        ¬agreesWith e 0x0A010007) ∧
    (∀ v, longestPrefixMatch
        (buildTrie [((0x0A000000, 8, 0) : Nat × Nat × Nat), (0x0A010000, 16, 1)])
        0x0A010007 = some v ↔
      ∃ e ∈ [((0x0A000000, 8, 0) : Nat × Nat × Nat), (0x0A010000, 16, 1)],
        agreesWith e 0x0A010007 ∧ e.2.2 = v ∧
          ∀ e' ∈ [((0x0A000000, 8, 0) : Nat × Nat × Nat), (0x0A010000, 16, 1)],
            agreesWith e' 0x0A010007 → e'.2.1 ≤ e.2.1)) :=
  ⟨by decide, by decide,
    C4_longest_prefix_match
      [((0x0A000000, 8, 0) : Nat × Nat × Nat), (0x0A010000, 16, 1)]
      0x0A010007 (by decide) (by decide)⟩

open BTrie in
/-- **C5.** `BinaryTrie::erase` claims (comment line 115: `Iterate in
reverse to remove empty nodes`) to unlink every purely structural node of
the erased path.  The loop actually runs from the root downward and breaks
at the first child that still has a child — which is always the case for
`prefix_len ≥ 2` — so after inserting at depth 2 and erasing that entry,
the erase reports success yet the value-free, child-free node at depth 2 of
the erased path is still linked in the trie. -/
theorem C5_erase_leaves_empty_chain :
    (erase (insert (emptyTrie Nat) [false, false] 42) [false, false]).1
        = true ∧
      childOf (childOf
        (erase (insert (emptyTrie Nat) [false, false] 42) [false, false]).2
        false) false = BTrie.node none false .nil .nil := by
  constructor
  · decide
  · decide

/-! ## TCP wire codec (`server/tcp_proto.hpp` / `server/tcp_proto.cpp`)

Buffers are byte lists (`Nat` restricted to byte values on the wire);
serializers return `Except String` mirroring the thrown
`std::invalid_argument`s.  Multi-byte integers are written big-endian by
`hton`; assigning a `size_t` to `uint16_t` truncates, which the byte
extraction below performs implicitly.
-/

/-- A 16-bit big-endian value as written by `hton` on a `uint16_t`. -/
def be16 (n : Nat) : List Nat :=
  [n / 2 ^ 8 % 2 ^ 8, n % 2 ^ 8]

/-- A 32-bit big-endian value as written by `hton` on a `uint32_t`. -/
def be32 (n : Nat) : List Nat :=
  [n / 2 ^ 24 % 2 ^ 8, n / 2 ^ 16 % 2 ^ 8, n / 2 ^ 8 % 2 ^ 8, n % 2 ^ 8]

/-- `TcpRequest::payload`: `variant<TcpRequestPayloadId,
TcpRequestPayloadTopic>`; each alternative carries its byte content (the
fixed arrays hold `id_size` / `topic_size` meaningful bytes). -/
inductive TcpRequestPayload where
  | idPayload (id : List Nat)
  | topicPayload (topic : List Nat)
deriving DecidableEq

/-- `TcpRequest`: a request-kind byte and a payload variant. -/
structure TcpRequest where
  type : Nat
  payload : TcpRequestPayload
deriving DecidableEq

/-- `TcpRequestPayloadId::serialize` / `TcpRequestPayloadTopic::serialize`
(tcp_proto.cpp lines 34-46 and 83-95): a 1-byte length then the bytes;
throws when the length exceeds the maximum (10 for ids, 50 for topics). -/
def tcpRequestPayloadSerialize : TcpRequestPayload → Except String (List Nat)
  | .idPayload id =>
    if id.length > 10 then
      .error "Failed to serialize tcp request ID: size exceeds maximum limit"
    else .ok ([id.length % 2 ^ 8] ++ id)
  | .topicPayload topic =>
    if topic.length > 50 then
      .error "Failed to serialize topic: size exceeds maximum limit"
    else .ok ([topic.length % 2 ^ 8] ++ topic)

/-- `serialized_size` of a request payload (tcp_proto.hpp lines 88, 136):
`sizeof(id_size) + id_size`. -/
def tcpRequestPayloadSerializedSize : TcpRequestPayload → Nat
  | .idPayload id => 1 + id.length
  | .topicPayload topic => 1 + topic.length

/-- `TcpRequest::serialize` (lines 124-130): the type byte then the payload. -/
def tcpRequestSerialize (r : TcpRequest) : Except String (List Nat) := do
  let p ← tcpRequestPayloadSerialize r.payload
  return [r.type % 2 ^ 8] ++ p

/-- `TcpRequest::serialized_size` (tcp_proto.hpp lines 187-191). -/
def tcpRequestSerializedSize (r : TcpRequest) : Nat :=
  1 + tcpRequestPayloadSerializedSize r.payload

/-- `TcpResponse::payload`: the four telemetry payload kinds. -/
inductive TcpResponsePayload where
  | int (sign : Nat) (value : Nat)
  | shortReal (value : Nat)
  | float (sign : Nat) (value : Nat) (exponent : Nat)
  | str (value : List Nat)
deriving DecidableEq

/-- The variant index written as the payload-kind byte. -/
def tcpResponsePayloadType : TcpResponsePayload → Nat
  | .int _ _ => 0
  | .shortReal _ => 1
  | .float _ _ _ => 2
  | .str _ => 3

/-- Per-kind serializers (tcp_proto.cpp lines 167-255). -/
def tcpResponsePayloadSerialize : TcpResponsePayload → Except String (List Nat)
  | .int sign value => .ok ([sign % 2 ^ 8] ++ be32 value)
  | .shortReal value => .ok (be16 value)
  | .float sign value exponent =>
    .ok ([sign % 2 ^ 8] ++ be32 value ++ [exponent % 2 ^ 8])
  | .str value =>
    if value.length > 1500 then
      .error "Failed to serialize tcp response STRING: size exceeds maximum limit"
    else .ok (be16 value.length ++ value)

/-- Per-kind `serialized_size` (tcp_proto.hpp lines 239-241, 277, 316-318,
366-368). -/
def tcpResponsePayloadSerializedSize : TcpResponsePayload → Nat
  | .int _ _ => 1 + 4
  | .shortReal _ => 2
  | .float _ _ _ => 1 + 4 + 1
  | .str value => 2 + value.length

/-- `TcpResponse`: publisher address (the `uint32_t` IP is network-order as
received, so its four raw bytes are carried as a 4-tuple), port in host
order, topic bytes, payload variant. -/
structure TcpResponse where
  udpClientIp : Nat × Nat × Nat × Nat
  udpClientPort : Nat
  topic : List Nat
  payload : TcpResponsePayload
deriving DecidableEq

/-- `TcpResponse::serialize` (lines 295-315): raw IP bytes, big-endian
port, 1-byte topic size, topic bytes, payload-kind byte, payload. -/
def tcpResponseSerialize (r : TcpResponse) : Except String (List Nat) := do
  let p ← tcpResponsePayloadSerialize r.payload
  return [r.udpClientIp.1, r.udpClientIp.2.1, r.udpClientIp.2.2.1,
      r.udpClientIp.2.2.2] ++
    be16 r.udpClientPort ++ [r.topic.length % 2 ^ 8] ++ r.topic ++
    [tcpResponsePayloadType r.payload] ++ p

/-- `TcpResponse::serialized_size` (tcp_proto.hpp lines 417-422):
`4 + 2 + 1 + topic_size + 1 + payload size`. -/
def tcpResponseSerializedSize (r : TcpResponse) : Nat :=
  4 + 2 + 1 + r.topic.length + 1 +
    tcpResponsePayloadSerializedSize r.payload

/-- `TcpMessage::payload`: `variant<TcpRequest, TcpResponse>`. -/
inductive TcpMessagePayload where
  | request (r : TcpRequest)
  | response (r : TcpResponse)
deriving DecidableEq

/-- `TcpMessage`: the variant plus the (unused by `serialize`) `uint32_t`
`payload_size` field; only the field's width matters, through
`sizeof(payload_size)` in `serialized_size`. -/
structure TcpMessage where
  payload : TcpMessagePayload
  payloadSize : Nat
deriving DecidableEq

/-- The inner `std::visit serialized_size` of the message payload. -/
def tcpMessagePayloadSerializedSize : TcpMessagePayload → Nat
  | .request r => tcpRequestSerializedSize r
  | .response r => tcpResponseSerializedSize r

/-- The message-kind byte: the variant index. -/
def tcpMessagePayloadType : TcpMessagePayload → Nat
  | .request _ => 0
  | .response _ => 1

/-- The inner serializer dispatched by `serialize_variant`. -/
def tcpMessagePayloadSerialize : TcpMessagePayload → Except String (List Nat)
  | .request r => tcpRequestSerialize r
  | .response r => tcpResponseSerialize r

/-- `TcpMessage::serialize` (tcp_proto.cpp lines 393-405): 1 byte variant
index, 2 bytes big-endian inner size (`uint16_t payload_size = visit
serialized_size`), then the inner payload. -/
def tcpMessageSerialize (m : TcpMessage) : Except String (List Nat) := do
  let inner ← tcpMessagePayloadSerialize m.payload
  return [tcpMessagePayloadType m.payload] ++
    be16 (tcpMessagePayloadSerializedSize m.payload) ++ inner

/-- `TcpMessage::serialized_size` (tcp_proto.hpp lines 475-479):
`sizeof(TcpMessageType) + sizeof(payload_size) + visit serialized_size`
— counting the `uint32_t payload_size` **field** (4 bytes) although
`serialize` writes a 2-byte size. -/
def tcpMessageSerializedSize (m : TcpMessage) : Nat :=
  1 + 4 + tcpMessagePayloadSerializedSize m.payload

/-- `Server::send_tcp_message` (src/server/server.cpp lines 379-385):
serialize into `tcp_buffer_`, then `send_all(sockfd, tcp_buffer_.data(),
tcp_msg_.serialized_size())`.  The bytes put on the wire are the first
`serialized_size()` bytes of the buffer: the serialized frame followed by
stale buffer contents. -/
def sendTcpMessage (m : TcpMessage) (buffer : Nat → Nat) :
    Except String (List Nat) := do
  let bytes ← tcpMessageSerialize m
  return (List.range (tcpMessageSerializedSize m)).map
    (fun i => if h : i < bytes.length then bytes.get ⟨i, h⟩ else buffer i)

theorem tcpRequestPayloadSerialize_length (p : TcpRequestPayload)
    (bytes : List Nat) (h : tcpRequestPayloadSerialize p = .ok bytes) :
    bytes.length = tcpRequestPayloadSerializedSize p := by
  cases p with
  | idPayload id =>
    by_cases hlen : id.length > 10
    · simp [tcpRequestPayloadSerialize, hlen] at h
    · simp only [tcpRequestPayloadSerialize, if_neg hlen, Except.ok.injEq] at h
      subst h
      simp [tcpRequestPayloadSerializedSize]
      omega
  | topicPayload topic =>
    by_cases hlen : topic.length > 50
    · simp [tcpRequestPayloadSerialize, hlen] at h
    · simp only [tcpRequestPayloadSerialize, if_neg hlen, Except.ok.injEq] at h
      subst h
      simp [tcpRequestPayloadSerializedSize]
      omega

theorem tcpResponsePayloadSerialize_length (p : TcpResponsePayload)
    (bytes : List Nat) (h : tcpResponsePayloadSerialize p = .ok bytes) :
    bytes.length = tcpResponsePayloadSerializedSize p := by
  cases p with
  | int sign value =>
    simp only [tcpResponsePayloadSerialize, Except.ok.injEq] at h
    subst h
    simp [be32, tcpResponsePayloadSerializedSize]
  | shortReal value =>
    simp only [tcpResponsePayloadSerialize, Except.ok.injEq] at h
    subst h
    simp [be16, tcpResponsePayloadSerializedSize]
  | float sign value exponent =>
    simp only [tcpResponsePayloadSerialize, Except.ok.injEq] at h
    subst h
    simp [be32, tcpResponsePayloadSerializedSize]
  | str value =>
    by_cases hlen : value.length > 1500
    · simp [tcpResponsePayloadSerialize, hlen] at h
    · simp only [tcpResponsePayloadSerialize, if_neg hlen, Except.ok.injEq] at h
      subst h
      simp [be16, tcpResponsePayloadSerializedSize]
      omega

theorem tcpMessagePayloadSerialize_length (p : TcpMessagePayload)
    (bytes : List Nat) (h : tcpMessagePayloadSerialize p = .ok bytes) :
    bytes.length = tcpMessagePayloadSerializedSize p := by
  cases p with
  | request r =>
    simp only [tcpMessagePayloadSerialize, tcpRequestSerialize] at h
    cases hp : tcpRequestPayloadSerialize r.payload with
    | error e => rw [hp] at h; exact absurd h (by simp)
    | ok pb =>
      rw [hp] at h
      simp only [bind, Except.bind, Except.ok.injEq, pure, Except.pure] at h
      subst h
      simp only [tcpMessagePayloadSerializedSize, tcpRequestSerializedSize,
        List.length_append, List.length_singleton,
        tcpRequestPayloadSerialize_length r.payload pb hp]
  | response r =>
    simp only [tcpMessagePayloadSerialize, tcpResponseSerialize] at h
    cases hp : tcpResponsePayloadSerialize r.payload with
    | error e => rw [hp] at h; exact absurd h (by simp)
    | ok pb =>
      rw [hp] at h
      simp only [bind, Except.bind, Except.ok.injEq, pure, Except.pure] at h
      subst h
      simp only [tcpMessagePayloadSerializedSize, tcpResponseSerializedSize,
        List.length_append, List.length_singleton, be16, List.length_cons,
        List.length_nil, tcpResponsePayloadSerialize_length r.payload pb hp]

/-- **C2.** `send_tcp_message` does **not** transmit exactly `3 + S` bytes:
`TcpMessage::serialize` writes `1 + 2 + S` bytes, but `send_all` is given
`serialized_size() = 1 + 4 + S` bytes (`sizeof` of the `uint32_t`
`payload_size` field), so every frame is followed by two stale buffer
bytes — while the in-repo receivers (`fetch_tcp_request`,
`fetch_tcp_response`) read exactly `1 + 2 + S` bytes per frame. -/
theorem C2_send_transmits_two_extra_bytes (m : TcpMessage)
    (buffer : Nat → Nat) (bytes sent : List Nat)
    (h1 : tcpMessageSerialize m = .ok bytes)
    (h2 : sendTcpMessage m buffer = .ok sent) :
    bytes.length = 3 + tcpMessagePayloadSerializedSize m.payload ∧
    sent.length = 5 + tcpMessagePayloadSerializedSize m.payload ∧
    sent.take bytes.length = bytes := by
  have hblen : bytes.length = 3 + tcpMessagePayloadSerializedSize m.payload := by
    unfold tcpMessageSerialize at h1
    cases hp : tcpMessagePayloadSerialize m.payload with
    | error e => rw [hp] at h1; exact absurd h1 (by simp)
    | ok inner =>
      rw [hp] at h1
      simp only [bind, Except.bind, Except.ok.injEq, pure, Except.pure] at h1
      subst h1
      simp only [List.length_append, List.length_singleton, be16,
        List.length_cons, List.length_nil,
        tcpMessagePayloadSerialize_length m.payload inner hp]
  unfold sendTcpMessage at h2
  rw [h1] at h2
  simp only [bind, Except.bind, Except.ok.injEq, pure, Except.pure] at h2
  subst h2
  refine ⟨hblen, ?_, ?_⟩
  · simp [tcpMessageSerializedSize]
  · have hle : bytes.length ≤ tcpMessageSerializedSize m := by
      rw [hblen]
      simp only [tcpMessageSerializedSize]
      omega
    apply List.ext_getElem
    · simp only [List.length_take, List.length_map, List.length_range]
      omega
    · intro i hi1 hi2
      have hib : i < bytes.length := by
        simp only [List.length_take, List.length_map, List.length_range] at hi1
        omega
      have hir : i < tcpMessageSerializedSize m := by omega
      rw [List.getElem_take, List.getElem_map, List.getElem_range,
        dif_pos hib]
      rfl

/-- Witness for `C2_send_transmits_two_extra_bytes`: a CONNECT request with
the one-byte id `a` (inner size 3) over a zeroed buffer. -/
theorem C2_send_transmits_two_extra_bytes_witness :
    tcpMessageSerialize ⟨.request ⟨0, .idPayload [97]⟩, 0⟩ =
        .ok [0, 0, 3, 0, 1, 97] ∧
      sendTcpMessage ⟨.request ⟨0, .idPayload [97]⟩, 0⟩ (fun _ => 0) =
        .ok [0, 0, 3, 0, 1, 97, 0, 0] ∧
      (([0, 0, 3, 0, 1, 97] : List Nat).length = 3 +
          tcpMessagePayloadSerializedSize (.request ⟨0, .idPayload [97]⟩) ∧
        ([0, 0, 3, 0, 1, 97, 0, 0] : List Nat).length = 5 +
          tcpMessagePayloadSerializedSize (.request ⟨0, .idPayload [97]⟩) ∧
        ([0, 0, 3, 0, 1, 97, 0, 0] : List Nat).take
          ([0, 0, 3, 0, 1, 97] : List Nat).length = [0, 0, 3, 0, 1, 97]) :=
  ⟨by rfl, by rfl,
    C2_send_transmits_two_extra_bytes ⟨.request ⟨0, .idPayload [97]⟩, 0⟩
      (fun _ => 0) [0, 0, 3, 0, 1, 97] [0, 0, 3, 0, 1, 97, 0, 0]
      (by rfl) (by rfl)⟩


/-- `TcpRequestPayloadId::deserialize` (tcp_proto.cpp lines 48-73) over an
abstract byte memory: `mem i` is the byte at offset `i` of the (already
advanced) buffer pointer and `size` the remaining `buffer_size`.  The three
`throw`s are the three error results, checked in source order: size byte
readable, declared id length within the maximum (10), declared length
within the remaining buffer. -/
def tcpRequestPayloadIdDeserialize (mem : Nat → Nat) (size : Nat) :
    Except String (List Nat) :=
  if size < 1 then
    .error "Failed to deserialize tcp request ID size: buffer size is too small"
  else if mem 0 > 10 then
    .error "Failed to deserialize tcp request ID: ID size exceeds maximum limit"
  else if mem 0 > size - 1 then
    .error "Failed to deserialize tcp request ID data: buffer size is too small"
  else .ok ((List.range (mem 0)).map (fun i => mem (1 + i)))

/-- `TcpRequestPayloadTopic::deserialize` (lines 97-122): the same shape
with the topic maximum 50. -/
def tcpRequestPayloadTopicDeserialize (mem : Nat → Nat) (size : Nat) :
    Except String (List Nat) :=
  if size < 1 then
    .error "Failed to deserialize topic size: buffer size is too small"
  else if mem 0 > 50 then
    .error "Failed to deserialize topic: topic size exceeds maximum limit"
  else if mem 0 > size - 1 then
    .error "Failed to deserialize topic data: buffer size is too small"
  else .ok ((List.range (mem 0)).map (fun i => mem (1 + i)))

/-- `TcpRequest::deserialize` (lines 132-161): read the request-kind byte,
then dispatch: CONNECT (0) to the id deserializer, SUBSCRIBE (1) /
UNSUBSCRIBE (2) to the topic deserializer, anything else is the unknown-type
error. -/
def tcpRequestDeserialize (mem : Nat → Nat) (bufferSize : Nat) :
    Except String TcpRequest :=
  if bufferSize < 1 then
    .error "Failed to deserialize request type: buffer size is too small"
  else
    match mem 0 with
    | 0 => (tcpRequestPayloadIdDeserialize (fun i => mem (1 + i))
        (bufferSize - 1)).map (fun id => ⟨0, .idPayload id⟩)
    | 1 => (tcpRequestPayloadTopicDeserialize (fun i => mem (1 + i))
        (bufferSize - 1)).map (fun t => ⟨1, .topicPayload t⟩)
    | 2 => (tcpRequestPayloadTopicDeserialize (fun i => mem (1 + i))
        (bufferSize - 1)).map (fun t => ⟨2, .topicPayload t⟩)
    | _ => .error "Failed to deserialize request: unknown type"

/-- **C8.** `TcpRequest::deserialize` succeeds exactly when the buffer holds
the kind byte and the length byte, the kind byte is
CONNECT/SUBSCRIBE/UNSUBSCRIBE, the declared length respects the per-kind
maximum (10 for ids, 50 for topics), and the declared bytes fit in the
buffer; in every other case it throws.  And it never reads past
`bufferSize` bytes: two memories agreeing on the first `bufferSize` bytes
deserialize identically. -/
theorem C8_request_deserialize_spec (mem mem2 : Nat → Nat) (bufferSize : Nat)
    (hagree : ∀ i < bufferSize, mem i = mem2 i) :
    ((∃ r, tcpRequestDeserialize mem bufferSize = .ok r) ↔
      (2 ≤ bufferSize ∧ (mem 0 = 0 ∨ mem 0 = 1 ∨ mem 0 = 2) ∧
        mem 1 ≤ (if mem 0 = 0 then 10 else 50) ∧ mem 1 ≤ bufferSize - 2)) ∧
    tcpRequestDeserialize mem bufferSize =
      tcpRequestDeserialize mem2 bufferSize := by
  have hid : ∀ hb : 1 ≤ bufferSize,
      ((∃ bs, tcpRequestPayloadIdDeserialize (fun i => mem (1 + i))
          (bufferSize - 1) = .ok bs) ↔
        (2 ≤ bufferSize ∧ mem 1 ≤ 10 ∧ mem 1 ≤ bufferSize - 2)) := by
    intro hb
    unfold tcpRequestPayloadIdDeserialize
    by_cases h1 : bufferSize - 1 < 1
    · simp only [if_pos h1]
      constructor
      · rintro ⟨bs, hbs⟩
        exact absurd hbs (by simp)
      · intro h
        omega
    · rw [if_neg h1]
      by_cases h2 : mem 1 > 10
      · rw [if_pos (by simpa using h2)]
        constructor
        · rintro ⟨bs, hbs⟩
          exact absurd hbs (by simp)
        · intro h
          omega
      · rw [if_neg (by simpa using h2)]
        by_cases h3 : mem 1 > bufferSize - 1 - 1
        · rw [if_pos (by simpa using h3)]
          constructor
          · rintro ⟨bs, hbs⟩
            exact absurd hbs (by simp)
          · intro h
            omega
        · rw [if_neg (by simpa using h3)]
          constructor
          · intro _
            refine ⟨by omega, by omega, by omega⟩
          · intro _
            exact ⟨_, rfl⟩
  have htopic : ∀ hb : 1 ≤ bufferSize,
      ((∃ bs, tcpRequestPayloadTopicDeserialize (fun i => mem (1 + i))
          (bufferSize - 1) = .ok bs) ↔
        (2 ≤ bufferSize ∧ mem 1 ≤ 50 ∧ mem 1 ≤ bufferSize - 2)) := by
    intro hb
    unfold tcpRequestPayloadTopicDeserialize
    by_cases h1 : bufferSize - 1 < 1
    · simp only [if_pos h1]
      constructor
      · rintro ⟨bs, hbs⟩
        exact absurd hbs (by simp)
      · intro h
        omega
    · rw [if_neg h1]
      by_cases h2 : mem 1 > 50
      · rw [if_pos (by simpa using h2)]
        constructor
        · rintro ⟨bs, hbs⟩
          exact absurd hbs (by simp)
        · intro h
          omega
      · rw [if_neg (by simpa using h2)]
        by_cases h3 : mem 1 > bufferSize - 1 - 1
        · rw [if_pos (by simpa using h3)]
          constructor
          · rintro ⟨bs, hbs⟩
            exact absurd hbs (by simp)
          · intro h
            omega
        · rw [if_neg (by simpa using h3)]
          constructor
          · intro _
            refine ⟨by omega, by omega, by omega⟩
          · intro _
            exact ⟨_, rfl⟩
  constructor
  · unfold tcpRequestDeserialize
    by_cases hb : bufferSize < 1
    · rw [if_pos hb]
      constructor
      · rintro ⟨r, hr⟩
        exact absurd hr (by simp)
      · intro h
        omega
    · rw [if_neg hb]
      rcases hk : mem 0 with _ | _ | _ | k3
      · simp only [if_true, eq_self_iff_true, true_or]
        constructor
        · rintro ⟨r, hr⟩
          obtain ⟨bs, hbs⟩ : ∃ bs, tcpRequestPayloadIdDeserialize
              (fun i => mem (1 + i)) (bufferSize - 1) = .ok bs := by
            cases hd : tcpRequestPayloadIdDeserialize (fun i => mem (1 + i))
                (bufferSize - 1) with
            | error e => rw [hd] at hr; exact absurd hr (by simp [Except.map])
            | ok bs => exact ⟨bs, rfl⟩
          obtain ⟨h1, h2, h3⟩ := (hid (by omega)).mp ⟨bs, hbs⟩
          exact ⟨h1, trivial, h2, h3⟩
        · rintro ⟨h1, _, h2, h3⟩
          obtain ⟨bs, hbs⟩ := (hid (by omega)).mpr ⟨h1, h2, h3⟩
          exact ⟨⟨0, .idPayload bs⟩, by rw [hbs]; rfl⟩
      · simp only [Nat.succ_ne_zero, if_false, eq_self_iff_true, true_or,
          or_true, Nat.one_ne_zero]
        constructor
        · rintro ⟨r, hr⟩
          obtain ⟨bs, hbs⟩ : ∃ bs, tcpRequestPayloadTopicDeserialize
              (fun i => mem (1 + i)) (bufferSize - 1) = .ok bs := by
            cases hd : tcpRequestPayloadTopicDeserialize (fun i => mem (1 + i))
                (bufferSize - 1) with
            | error e => rw [hd] at hr; exact absurd hr (by simp [Except.map])
            | ok bs => exact ⟨bs, rfl⟩
          obtain ⟨h1, h2, h3⟩ := (htopic (by omega)).mp ⟨bs, hbs⟩
          exact ⟨h1, trivial, h2, h3⟩
        · rintro ⟨h1, _, h2, h3⟩
          obtain ⟨bs, hbs⟩ := (htopic (by omega)).mpr ⟨h1, h2, h3⟩
          exact ⟨⟨1, .topicPayload bs⟩, by rw [hbs]; rfl⟩
      · simp only [Nat.succ_ne_zero, if_false, eq_self_iff_true, true_or,
          or_true]
        constructor
        · rintro ⟨r, hr⟩
          obtain ⟨bs, hbs⟩ : ∃ bs, tcpRequestPayloadTopicDeserialize
              (fun i => mem (1 + i)) (bufferSize - 1) = .ok bs := by
            cases hd : tcpRequestPayloadTopicDeserialize (fun i => mem (1 + i))
                (bufferSize - 1) with
            | error e => rw [hd] at hr; exact absurd hr (by simp [Except.map])
            | ok bs => exact ⟨bs, rfl⟩
          obtain ⟨h1, h2, h3⟩ := (htopic (by omega)).mp ⟨bs, hbs⟩
          exact ⟨h1, trivial, h2, h3⟩
        · rintro ⟨h1, _, h2, h3⟩
          obtain ⟨bs, hbs⟩ := (htopic (by omega)).mpr ⟨h1, h2, h3⟩
          exact ⟨⟨2, .topicPayload bs⟩, by rw [hbs]; rfl⟩
      · simp only []
        constructor
        · rintro ⟨r, hr⟩
          exact absurd hr (by simp)
        · rintro ⟨h1, hkind, h2, h3⟩
          rcases hkind with h | h | h <;> omega
  · unfold tcpRequestDeserialize
    by_cases hb : bufferSize < 1
    · rw [if_pos hb, if_pos hb]
    · rw [if_neg hb, if_neg hb]
      have h0 : mem 0 = mem2 0 := hagree 0 (by omega)
      rw [← h0]
      have hinner : ∀ max : Nat, bufferSize - 1 < 1 ∨
          (mem 1 = mem2 1 ∧ (mem 1 ≤ bufferSize - 2 →
            (List.range (mem 1)).map (fun i => mem (1 + (1 + i))) =
              (List.range (mem 1)).map (fun i => mem2 (1 + (1 + i))))) := by
        intro _
        by_cases hb2 : bufferSize - 1 < 1
        · exact Or.inl hb2
        · refine Or.inr ⟨hagree 1 (by omega), ?_⟩
          intro hfit
          apply List.map_congr_left
          intro i hi
          rw [List.mem_range] at hi
          exact hagree (1 + (1 + i)) (by omega)
      have hidEq : tcpRequestPayloadIdDeserialize (fun i => mem (1 + i))
          (bufferSize - 1) =
          tcpRequestPayloadIdDeserialize (fun i => mem2 (1 + i))
          (bufferSize - 1) := by
        unfold tcpRequestPayloadIdDeserialize
        rcases hinner 10 with hb2 | ⟨h1eq, hmapeq⟩
        · rw [if_pos hb2, if_pos hb2]
        · by_cases hb2 : bufferSize - 1 < 1
          · rw [if_pos hb2, if_pos hb2]
          · rw [if_neg hb2, if_neg hb2]
            show (if mem 1 > 10 then _ else if mem 1 > bufferSize - 1 - 1
                then _ else _) =
              (if mem2 1 > 10 then _ else if mem2 1 > bufferSize - 1 - 1
                then _ else _)
            rw [← h1eq]
            by_cases hm : mem 1 > 10
            · rw [if_pos hm, if_pos hm]
            · rw [if_neg hm, if_neg hm]
              by_cases hf : mem 1 > bufferSize - 1 - 1
              · rw [if_pos hf, if_pos hf]
              · rw [if_neg hf, if_neg hf]
                show Except.ok ((List.range (mem 1)).map
                    (fun i => mem (1 + (1 + i)))) =
                  Except.ok ((List.range (mem2 1)).map
                    (fun i => mem2 (1 + (1 + i))))
                rw [← h1eq, hmapeq (by omega)]
      have htopicEq : tcpRequestPayloadTopicDeserialize (fun i => mem (1 + i))
          (bufferSize - 1) =
          tcpRequestPayloadTopicDeserialize (fun i => mem2 (1 + i))
          (bufferSize - 1) := by
        unfold tcpRequestPayloadTopicDeserialize
        rcases hinner 50 with hb2 | ⟨h1eq, hmapeq⟩
        · rw [if_pos hb2, if_pos hb2]
        · by_cases hb2 : bufferSize - 1 < 1
          · rw [if_pos hb2, if_pos hb2]
          · rw [if_neg hb2, if_neg hb2]
            show (if mem 1 > 50 then _ else if mem 1 > bufferSize - 1 - 1
                then _ else _) =
              (if mem2 1 > 50 then _ else if mem2 1 > bufferSize - 1 - 1
                then _ else _)
            rw [← h1eq]
            by_cases hm : mem 1 > 50
            · rw [if_pos hm, if_pos hm]
            · rw [if_neg hm, if_neg hm]
              by_cases hf : mem 1 > bufferSize - 1 - 1
              · rw [if_pos hf, if_pos hf]
              · rw [if_neg hf, if_neg hf]
                show Except.ok ((List.range (mem 1)).map
                    (fun i => mem (1 + (1 + i)))) =
                  Except.ok ((List.range (mem2 1)).map
                    (fun i => mem2 (1 + (1 + i))))
                rw [← h1eq, hmapeq (by omega)]
      rcases hk : mem 0 with _ | _ | _ | k3 <;> simp only []
      · rw [hidEq]
      · rw [htopicEq]
      · rw [htopicEq]

/-- Witness for `C8_request_deserialize_spec`: a SUBSCRIBE request carrying
the two-byte topic `ab` in a 4-byte buffer, compared against a memory that
differs only beyond the buffer. -/
theorem C8_request_deserialize_spec_witness :
    (∀ i < 4, (fun i => [1, 2, 97, 98].getD i 0) i =
      (fun i => [1, 2, 97, 98].getD i 7) i) ∧
    (((∃ r, tcpRequestDeserialize (fun i => [1, 2, 97, 98].getD i 0) 4
        = .ok r) ↔
      (2 ≤ 4 ∧ ((fun i => [1, 2, 97, 98].getD i 0) 0 = 0 ∨
          (fun i => [1, 2, 97, 98].getD i 0) 0 = 1 ∨
          (fun i => [1, 2, 97, 98].getD i 0) 0 = 2) ∧
        (fun i => [1, 2, 97, 98].getD i 0) 1 ≤
          (if (fun i => [1, 2, 97, 98].getD i 0) 0 = 0 then 10 else 50) ∧
        (fun i => [1, 2, 97, 98].getD i 0) 1 ≤ 4 - 2)) ∧
    tcpRequestDeserialize (fun i => [1, 2, 97, 98].getD i 0) 4 =
      tcpRequestDeserialize (fun i => [1, 2, 97, 98].getD i 7) 4) :=
  ⟨by decide,
    C8_request_deserialize_spec (fun i => [1, 2, 97, 98].getD i 0)
      (fun i => [1, 2, 97, 98].getD i 7) 4 (by decide)⟩


/-! ### C9: ARP reply draining the pending-packet queue (dataplane-router) -/

/-- An Ethernet frame abstracted to its header fields and opaque payload
(the skeleton header `protocols.h` declaring `ether_hdr` with
`ethr_dhost`, `ethr_shost`, `ethr_type` is not part of this repository, so
the byte layout is not modelled; `send_frame` writes exactly these three
header fields). -/
structure EthFrame where
  dhost : List Nat
  shost : List Nat
  ethType : Nat
  payload : List Nat
deriving DecidableEq

/-- `router::arp::PendingPacket` (arp-table.hpp lines 13-16). -/
structure PendingPacket where
  nextHopIface : Nat
  frame : EthFrame
deriving DecidableEq

/-- `router::arp::ArpTableEntry` (arp-table.hpp lines 18-21). -/
structure ArpTableEntry where
  ip : Nat
  mac : List Nat
deriving DecidableEq

/-- `router::arp::ArpTable` (arp-table.hpp lines 23-41): the resolved map
`arp_table_` and the per-IP queues `pending_packets_` of frames awaiting
resolution. -/
structure ArpTable where
  arpTable : List (Nat × ArpTableEntry)
  pendingPackets : List (Nat × List PendingPacket)
deriving DecidableEq

/-- `ArpTable::add_entry` (arp-table.hpp lines 25-27): `try_emplace`
inserts the entry only when the ip has no binding yet. -/
def addEntry (t : ArpTable) (e : ArpTableEntry) : ArpTable :=
  match alookup t.arpTable e.ip with
  | some _ => t
  | none => { t with arpTable := (e.ip, e) :: t.arpTable }

/-- `ArpTable::add_pending_packet` (arp-table.hpp lines 29-31):
`pending_packets_[ip]` default-constructs an empty vector when the key is
absent, then `push_back` appends the packet. -/
def addPendingPacket (t : ArpTable) (ip : Nat) (p : PendingPacket) :
    ArpTable :=
  { t with pendingPackets :=
      match alookup t.pendingPackets ip with
      | none => aset t.pendingPackets ip [p]
      | some q => aset t.pendingPackets ip (q ++ [p]) }

/-- `ArpTable::lookup` (arp-table.cpp lines 5-11). -/
def arpLookup (t : ArpTable) (ip : Nat) : Option ArpTableEntry :=
  alookup t.arpTable ip

/-- `ArpTable::retrieve_pending_packets` (arp-table.cpp lines 13-20):
`extract(ip)` removes the node from the map and hands back its mapped
vector, or `nullopt` when absent. -/
def retrievePendingPackets (t : ArpTable) (ip : Nat) :
    Option (List PendingPacket) × ArpTable :=
  (alookup t.pendingPackets ip,
    { t with pendingPackets := aerase t.pendingPackets ip })

/-- An observable transmission of the router: a frame handed to
`send_to_link`, or an ARP request emitted by `send_arp_request`. -/
inductive RouterOutput where
  | sendToLink (iface : Nat) (frame : EthFrame)
  | arpRequest (destIp : Nat) (iface : Nat)
deriving DecidableEq

/-- `ETHERTYPE_IP` (lib_wrapper.hpp line 11). -/
def ETHERTYPE_IP : Nat := 0x0800

/-- `Router::send_frame` (router.cpp lines 246-271), with the per-interface
MAC supplied by `ifaceMac` in place of `get_interface_mac`: look up the
destination IP in the ARP table; when missing, emit an ARP request and
queue the frame for later (lines 250-258); when present, rewrite the
Ethernet source, destination and type fields and hand the frame to
`send_to_link` (lines 260-271).  The result is the updated ARP-table state
and the outputs in emission order. -/
def sendFrame (ifaceMac : Nat → List Nat) (t : ArpTable) (frame : EthFrame)
    (iface : Nat) (destIp : Nat) (ethType : Nat) :
    ArpTable × List RouterOutput :=
  match arpLookup t destIp with
  | none =>
    (addPendingPacket t destIp ⟨iface, frame⟩, [.arpRequest destIp iface])
  | some e =>
    (t, [.sendToLink iface
      { frame with shost := ifaceMac iface, dhost := e.mac,
                   ethType := ethType }])

/-- `Router::handle_arp_reply` (router.cpp lines 284-317): record the
sender's ip-to-MAC mapping with `add_entry`, extract the pending queue for
the sender's IP, and push every queued frame through `send_frame` in queue
order.  `senderIp` and `senderMac` stand for the `sprotoa` / `shwa` fields
copied out of the ARP header. -/
def handleArpReply (ifaceMac : Nat → List Nat) (t : ArpTable)
    (senderIp : Nat) (senderMac : List Nat) : ArpTable × List RouterOutput :=
  let t1 := addEntry t ⟨senderIp, senderMac⟩
  match retrievePendingPackets t1 senderIp with
  | (none, t2) => (t2, [])
  | (some pkts, t2) =>
    pkts.foldl (fun acc pkt =>
      let r := sendFrame ifaceMac acc.1 pkt.frame pkt.nextHopIface
        senderIp ETHERTYPE_IP
      (r.1, acc.2 ++ r.2)) (t2, [])

/-- Draining helper: once the ARP table resolves `N` to `e`, the drain
loop sends every pending packet with rewritten headers, in order, without
touching the state. -/
theorem sendFrame_drain (ifaceMac : Nat → List Nat) (N : Nat)
    (e : ArpTableEntry) (pkts : List PendingPacket) :
    ∀ (st : ArpTable) (outs : List RouterOutput),
      arpLookup st N = some e →
      pkts.foldl (fun acc pkt =>
        let r := sendFrame ifaceMac acc.1 pkt.frame pkt.nextHopIface
          N ETHERTYPE_IP
        (r.1, acc.2 ++ r.2)) (st, outs) =
      (st, outs ++ pkts.map (fun pkt => .sendToLink pkt.nextHopIface
        { pkt.frame with shost := ifaceMac pkt.nextHopIface, dhost := e.mac,
                         ethType := ETHERTYPE_IP })) := by
  induction pkts with
  | nil => intro st outs _; simp
  | cons p ps ih =>
    intro st outs hst
    rw [List.foldl_cons]
    show ps.foldl _
        (let r := sendFrame ifaceMac st p.frame p.nextHopIface N ETHERTYPE_IP
         (r.1, outs ++ r.2)) = _
    rw [show sendFrame ifaceMac st p.frame p.nextHopIface N ETHERTYPE_IP =
        (st, [.sendToLink p.nextHopIface
          { p.frame with shost := ifaceMac p.nextHopIface, dhost := e.mac,
                         ethType := ETHERTYPE_IP }]) from by
      unfold sendFrame; rw [hst]]
    rw [ih st _ hst]
    simp

/-- **C9.** When an ARP reply resolving `N` to `mac` arrives while the
queue `q` is pending for `N` and no ARP entry for `N` exists yet,
`handle_arp_reply` records `N ↦ mac` in the ARP table, transmits exactly
the queued frames in enqueue order — each through `send_frame`, which now
resolves `N` and rewrites the Ethernet source to the out-interface MAC,
the destination to `mac` and the type to `ETHERTYPE_IP` — and afterwards
no pending queue for `N` remains. -/
theorem C9_arp_reply_drains_pending (ifaceMac : Nat → List Nat)
    (t : ArpTable) (N : Nat) (mac : List Nat) (q : List PendingPacket)
    (hq : alookup t.pendingPackets N = some q)
    (hnone : alookup t.arpTable N = none)
    (hnd : keysND t.pendingPackets) :
    arpLookup (handleArpReply ifaceMac t N mac).1 N =
      some ⟨N, mac⟩ ∧
    (handleArpReply ifaceMac t N mac).2 =
      q.map (fun pkt => .sendToLink pkt.nextHopIface
        { pkt.frame with shost := ifaceMac pkt.nextHopIface, dhost := mac,
                         ethType := ETHERTYPE_IP }) ∧
    alookup (handleArpReply ifaceMac t N mac).1.pendingPackets N = none := by
  have ht1 : addEntry t ⟨N, mac⟩ =
      { t with arpTable := (N, ⟨N, mac⟩) :: t.arpTable } := by
    unfold addEntry
    rw [hnone]
  have hlook : arpLookup { t with
      arpTable := (N, (⟨N, mac⟩ : ArpTableEntry)) :: t.arpTable,
      pendingPackets := aerase t.pendingPackets N } N = some ⟨N, mac⟩ := by
    simp [arpLookup, alookup]
  have hrun : handleArpReply ifaceMac t N mac =
      ({ t with arpTable := (N, ⟨N, mac⟩) :: t.arpTable,
                pendingPackets := aerase t.pendingPackets N },
       q.map (fun pkt => .sendToLink pkt.nextHopIface
        { pkt.frame with shost := ifaceMac pkt.nextHopIface, dhost := mac,
                         ethType := ETHERTYPE_IP })) := by
    unfold handleArpReply
    rw [ht1]
    show (match retrievePendingPackets { t with
        arpTable := (N, ⟨N, mac⟩) :: t.arpTable } N with
      | (none, t2) => (t2, [])
      | (some pkts, t2) => pkts.foldl _ (t2, [])) = _
    rw [show retrievePendingPackets { t with
        arpTable := (N, (⟨N, mac⟩ : ArpTableEntry)) :: t.arpTable } N =
      (some q, { t with arpTable := (N, ⟨N, mac⟩) :: t.arpTable,
                        pendingPackets := aerase t.pendingPackets N }) from by
      unfold retrievePendingPackets
      rw [show alookup ({ t with
          arpTable := (N, (⟨N, mac⟩ : ArpTableEntry)) ::
            t.arpTable } : ArpTable).pendingPackets N = some q from hq]]
    simp only []
    rw [sendFrame_drain ifaceMac N ⟨N, mac⟩ q _ [] hlook]
    simp
  rw [hrun]
  refine ⟨by simp [arpLookup, alookup], rfl, ?_⟩
  exact alookup_aerase_self t.pendingPackets N hnd

/-- Witness for `C9_arp_reply_drains_pending`: two frames pending for IP 5,
drained by a reply carrying MAC [1,2,3,4,5,6]. -/
theorem C9_arp_reply_drains_pending_witness :
    (alookup (ArpTable.mk [] [(5, [⟨1, ⟨[], [], 0, [9]⟩⟩,
        ⟨2, ⟨[], [], 0, [8]⟩⟩])]).pendingPackets 5 =
      some [⟨1, ⟨[], [], 0, [9]⟩⟩, ⟨2, ⟨[], [], 0, [8]⟩⟩] ∧
     alookup (ArpTable.mk [] [(5, [⟨1, ⟨[], [], 0, [9]⟩⟩,
        ⟨2, ⟨[], [], 0, [8]⟩⟩])]).arpTable 5 = none ∧
     keysND (ArpTable.mk [] [(5, [⟨1, ⟨[], [], 0, [9]⟩⟩,
        ⟨2, ⟨[], [], 0, [8]⟩⟩])]).pendingPackets) ∧
    (arpLookup (handleArpReply (fun i => [i, 0, 0, 0, 0, 0])
        (ArpTable.mk [] [(5, [⟨1, ⟨[], [], 0, [9]⟩⟩,
          ⟨2, ⟨[], [], 0, [8]⟩⟩])]) 5 [1, 2, 3, 4, 5, 6]).1 5 =
        some ⟨5, [1, 2, 3, 4, 5, 6]⟩ ∧
      (handleArpReply (fun i => [i, 0, 0, 0, 0, 0])
        (ArpTable.mk [] [(5, [⟨1, ⟨[], [], 0, [9]⟩⟩,
          ⟨2, ⟨[], [], 0, [8]⟩⟩])]) 5 [1, 2, 3, 4, 5, 6]).2 =
        [.sendToLink 1 ⟨[1, 2, 3, 4, 5, 6], [1, 0, 0, 0, 0, 0],
            ETHERTYPE_IP, [9]⟩,
         .sendToLink 2 ⟨[1, 2, 3, 4, 5, 6], [2, 0, 0, 0, 0, 0],
            ETHERTYPE_IP, [8]⟩] ∧
      alookup (handleArpReply (fun i => [i, 0, 0, 0, 0, 0])
        (ArpTable.mk [] [(5, [⟨1, ⟨[], [], 0, [9]⟩⟩,
          ⟨2, ⟨[], [], 0, [8]⟩⟩])]) 5 [1, 2, 3, 4, 5, 6]).1.pendingPackets
        5 = none) :=
  ⟨⟨rfl, rfl, rfl, trivial⟩,
    C9_arp_reply_drains_pending (fun i => [i, 0, 0, 0, 0, 0])
      (ArpTable.mk [] [(5, [⟨1, ⟨[], [], 0, [9]⟩⟩, ⟨2, ⟨[], [], 0, [8]⟩⟩])])
      5 [1, 2, 3, 4, 5, 6]
      [⟨1, ⟨[], [], 0, [9]⟩⟩, ⟨2, ⟨[], [], 0, [8]⟩⟩]
      rfl rfl ⟨rfl, trivial⟩⟩


end PcomSpec